import Mathlib

/-!
# Verification of the ECS game-engine core (world / graph / serialization)

Shallow embedding of the TypeScript sources:
  * `src/engine/world.ts`   — entities, components, resources, signals, systems
  * `src/engine/graph.ts`   — generic directed graph (dfs, bfs, topological sort)
  * `src/engine/serialization.ts` — snapshot save / restore
  * `src/engine/types.ts`   — typed handles (component / resource / signal types)

JavaScript `Map`s are modelled as insertion-ordered association lists with
unique keys, `Set`s as insertion-ordered duplicate-free lists; both are the
exact observable semantics of the JS containers.  Recursive graph walks are
modelled with an explicit fuel argument (`none` = fuel exhausted); lemmas show
the fuel chosen by the top-level entry points is always sufficient, so fuel
exhaustion is unobservable.  JSON values are modelled by the inductive `JVal`.
-/

namespace Engine

/-! ## Association lists: the observable semantics of a JS `Map`.

`aset` replaces the value in place when the key is present (JS `Map.set` keeps
the original insertion position) and appends otherwise; `adel` removes the
entry; `alookup` is `Map.get`.  `sadd`/JS `Set.add` appends iff absent. -/

def alookup {α : Type} : List (String × α) → String → Option α
  | [], _ => none
  | (k, v) :: t, k' => if k = k' then some v else alookup t k'

def aset {α : Type} : List (String × α) → String → α → List (String × α)
  | [], k, v => [(k, v)]
  | (k', v') :: t, k, v => if k' = k then (k, v) :: t else (k', v') :: aset t k v

def adel {α : Type} : List (String × α) → String → List (String × α)
  | [], _ => []
  | p :: t, k => if p.1 = k then adel t k else p :: adel t k

def sadd (l : List String) (x : String) : List String :=
  if x ∈ l then l else l ++ [x]

/-! ## JSON-like runtime values (component / resource payloads).

`exotic` stands for the values the serializer rejects: functions, symbols,
DOM handles, `Map`/`Set`/`WeakMap`/`WeakSet`/`Promise` instances. -/

inductive JVal : Type where
  | null : JVal
  | bool : Bool → JVal
  | num : Int → JVal
  | str : String → JVal
  | arr : List JVal → JVal
  | obj : List (String × JVal) → JVal
  | exotic : JVal

mutual

/-- `isSerializable` from `serialization.ts`: primitives and `null` pass,
functions / symbols / container objects fail, arrays and plain objects are
checked recursively. -/
def isSerializable : JVal → Bool
  | .null => true
  | .bool _ => true
  | .num _ => true
  | .str _ => true
  | .arr xs => isSerializableList xs
  | .obj fs => isSerializableFields fs
  | .exotic => false

def isSerializableList : List JVal → Bool
  | [] => true
  | x :: xs => isSerializable x && isSerializableList xs

def isSerializableFields : List (String × JVal) → Bool
  | [] => true
  | (_, v) :: fs => isSerializable v && isSerializableFields fs

end

/-! ## The directed graph (`graph.ts`).

Node identifiers are strings (`EntityId` is a branded string).  Edge payloads
are modelled by `Nat`; none of the verified algorithms inspects them. -/

structure GraphState : Type where
  nodes : List String
  outg : List (String × List (String × Nat))
  inc : List (String × List String)
deriving DecidableEq, Repr

def emptyGraph : GraphState := ⟨[], [], []⟩

def addNode (g : GraphState) (e : String) : GraphState :=
  { g with nodes := sadd g.nodes e }

def removeNode (g : GraphState) (e : String) : GraphState :=
  let nodes' := g.nodes.erase e
  let inc1 :=
    match alookup g.outg e with
    | some out =>
        out.foldl
          (fun acc p =>
            match alookup acc p.1 with
            | some s => aset acc p.1 (s.erase e)
            | none => acc)
          g.inc
    | none => g.inc
  let outg1 := adel g.outg e
  let outg2 := outg1.map (fun p => (p.1, adel p.2 e))
  ⟨nodes', outg2, adel inc1 e⟩

def hasNode (g : GraphState) (e : String) : Bool :=
  g.nodes.contains e

def addEdge (g : GraphState) (a b : String) (d : Nat) : GraphState :=
  let nodes' := sadd (sadd g.nodes a) b
  let outg' :=
    match alookup g.outg a with
    | some m => aset g.outg a (aset m b d)
    | none => g.outg ++ [(a, [(b, d)])]
  let inc' :=
    match alookup g.inc b with
    | some s => aset g.inc b (sadd s a)
    | none => g.inc ++ [(b, [a])]
  ⟨nodes', outg', inc'⟩

def removeEdge (g : GraphState) (a b : String) : GraphState :=
  let outg' :=
    match alookup g.outg a with
    | some m => aset g.outg a (adel m b)
    | none => g.outg
  let inc' :=
    match alookup g.inc b with
    | some s => aset g.inc b (s.erase a)
    | none => g.inc
  { g with outg := outg', inc := inc' }

def hasEdge (g : GraphState) (a b : String) : Bool :=
  match alookup g.outg a with
  | some m => (alookup m b).isSome
  | none => false

def getEdgeData (g : GraphState) (a b : String) : Option Nat :=
  match alookup g.outg a with
  | some m => alookup m b
  | none => none

/-- `incoming` index membership: is `a` recorded as a source of `b`? -/
def incHas (g : GraphState) (b a : String) : Bool :=
  match alookup g.inc b with
  | some s => s.contains a
  | none => false

def children (g : GraphState) (n : String) : List String :=
  match alookup g.outg n with
  | some m => m.map Prod.fst
  | none => []

/-- The edge relation read off the outgoing index. -/
def isEdge (g : GraphState) (a b : String) : Prop :=
  hasEdge g a b = true

instance (g : GraphState) (a b : String) : Decidable (isEdge g a b) := by
  unfold isEdge; infer_instance

/-! ### Traversals

`dfs` (`graph.ts` lines 200-213): pre-order walk with a `visited` set, the
callback is modelled by the returned `(node, depth)` log.  `topological`
(lines 232-260): three-colour depth-first postorder; `temp` is the in-progress
set, the result list is built by `unshift`.  Recursion is by fuel; the inner
`for (const child of ...)` loops are `List.foldl` over the children in
insertion order, exactly as JS iterates them. -/

mutual

def dfsVisit (g : GraphState) :
    Nat → String → Nat → List String → List (String × Nat) →
      Option (List String × List (String × Nat))
  | 0, _, _, _, _ => none
  | fuel + 1, node, depth, visited, log =>
    if node ∈ visited then some (visited, log)
    else dfsFold g fuel (children g node) (depth + 1) (visited ++ [node])
      (log ++ [(node, depth)])
termination_by fuel => (fuel, 0)

def dfsFold (g : GraphState) :
    Nat → List String → Nat → List String → List (String × Nat) →
      Option (List String × List (String × Nat))
  | _, [], _, visited, log => some (visited, log)
  | fuel, c :: cs, depth, visited, log =>
    match dfsVisit g fuel c depth visited log with
    | none => none
    | some (v, l) => dfsFold g fuel cs depth v l
termination_by fuel cs => (fuel, cs.length + 1)

end

def dfs (g : GraphState) (start : String) : Option (List (String × Nat)) :=
  (dfsVisit g (g.nodes.length + 1) start 0 [] []).map Prod.snd

/-- One topological-sort state: (`temp`, `visited`, `result`). -/
abbrev TopoSt : Type := List String × List String × List String

mutual

/-- `visit` of `topological()`.  Outer `none` = fuel exhausted, `some none` =
`return false` (cycle detected), `some (some st)` = `return true`. -/
def topoVisit (g : GraphState) : Nat → String → TopoSt → Option (Option TopoSt)
  | 0, _, _ => none
  | fuel + 1, node, st =>
    if node ∈ st.1 then some none
    else if node ∈ st.2.1 then some (some st)
    else
      match topoFold g fuel (children g node) (st.1 ++ [node], st.2.1, st.2.2) with
      | none => none
      | some none => some none
      | some (some st') =>
          some (some (st'.1.erase node, st'.2.1 ++ [node], node :: st'.2.2))
termination_by fuel => (fuel, 0)

/-- The `for (const child of ...)` loop inside `visit`, with the early
`return false` of the source. -/
def topoFold (g : GraphState) : Nat → List String → TopoSt → Option (Option TopoSt)
  | _, [], st => some (some st)
  | fuel, c :: cs, st =>
    match topoVisit g fuel c st with
    | none => none
    | some none => some none
    | some (some st') => topoFold g fuel cs st'
termination_by fuel cs => (fuel, cs.length + 1)

end

/-- The `for (const node of nodes)` loop of `topological()`. -/
def topoLoop (g : GraphState) (fuel : Nat) :
    List String → TopoSt → Option (Option TopoSt)
  | [], st => some (some st)
  | n :: ns, st =>
    if n ∈ st.2.1 then topoLoop g fuel ns st
    else
      match topoVisit g fuel n st with
      | none => none
      | some none => some none
      | some (some st') => topoLoop g fuel ns st'

/-- `topological()`: `none` models the thrown cycle error. -/
def topological (g : GraphState) : Option (List String) :=
  match topoLoop g (g.nodes.length + 1) g.nodes ([], [], []) with
  | some (some st) => some st.2.2
  | _ => none

/-! ### Graph construction and the reachable-state invariant -/

inductive GOp : Type where
  | addNode (e : String)
  | removeNode (e : String)
  | addEdge (a b : String) (d : Nat)
  | removeEdge (a b : String)

def applyGOp (g : GraphState) : GOp → GraphState
  | .addNode e => addNode g e
  | .removeNode e => removeNode g e
  | .addEdge a b d => addEdge g a b d
  | .removeEdge a b => removeEdge g a b

def runGOps (ops : List GOp) : GraphState :=
  ops.foldl applyGOp emptyGraph

/-- A graph state producible by `createGraph` followed by any operations. -/
def GReachable (g : GraphState) : Prop :=
  ∃ ops : List GOp, runGOps ops = g

/-- Structural well-formedness every reachable graph enjoys. -/
structure GWF (g : GraphState) : Prop where
  nodes_nodup : g.nodes.Nodup
  outg_keys_nodup : (g.outg.map Prod.fst).Nodup
  inc_keys_nodup : (g.inc.map Prod.fst).Nodup
  outg_inner_nodup : ∀ p ∈ g.outg, (p.2.map Prod.fst).Nodup
  inc_inner_nodup : ∀ p ∈ g.inc, p.2.Nodup
  outg_keys_nodes : ∀ p ∈ g.outg, p.1 ∈ g.nodes
  inc_keys_nodes : ∀ p ∈ g.inc, p.1 ∈ g.nodes
  mirror : ∀ a b : String, hasEdge g a b = incHas g b a

/-! ## Library lemmas about the container models -/

theorem alookup_aset_self {α : Type} (l : List (String × α)) (k : String) (v : α) :
    alookup (aset l k v) k = some v := by
  induction l with
  | nil => simp [aset, alookup]
  | cons p t ih =>
      by_cases h : p.1 = k
      · simp [aset, h, alookup]
      · simp [aset, h, alookup, ih]

theorem alookup_aset_ne {α : Type} (l : List (String × α)) (k k' : String) (v : α)
    (h : k' ≠ k) : alookup (aset l k v) k' = alookup l k' := by
  induction l with
  | nil => simp [aset, alookup, Ne.symm h]
  | cons p t ih =>
      by_cases hp : p.1 = k
      · subst hp
        simp [aset, alookup, Ne.symm h]
      · simp only [aset, if_neg hp]
        by_cases hk' : p.1 = k'
        · simp [alookup, hk']
        · simp [alookup, hk', ih]

theorem keys_aset_of_mem {α : Type} (l : List (String × α)) (k : String) (v : α)
    (h : k ∈ l.map Prod.fst) : (aset l k v).map Prod.fst = l.map Prod.fst := by
  induction l with
  | nil => simp at h
  | cons p t ih =>
      by_cases hp : p.1 = k
      · simp [aset, hp]
      · simp only [List.map_cons, List.mem_cons] at h
        rcases h with h | h
        · exact absurd h.symm hp
        · simp [aset, hp, ih h]

theorem keys_aset_of_not_mem {α : Type} (l : List (String × α)) (k : String) (v : α)
    (h : k ∉ l.map Prod.fst) : (aset l k v).map Prod.fst = l.map Prod.fst ++ [k] := by
  induction l with
  | nil => simp [aset]
  | cons p t ih =>
      simp only [List.map_cons, List.mem_cons] at h
      push_neg at h
      simp [aset, Ne.symm h.1, ih h.2]

theorem alookup_eq_none {α : Type} (l : List (String × α)) (k : String) :
    alookup l k = none ↔ k ∉ l.map Prod.fst := by
  induction l with
  | nil => simp [alookup]
  | cons p t ih =>
      by_cases hp : p.1 = k
      · subst hp
        simp [alookup]
      · simp [alookup, hp, ih, Ne.symm hp]

theorem alookup_isSome {α : Type} (l : List (String × α)) (k : String) :
    (alookup l k).isSome = true ↔ k ∈ l.map Prod.fst := by
  induction l with
  | nil => simp [alookup]
  | cons p t ih =>
      by_cases hp : p.1 = k
      · subst hp
        simp [alookup]
      · simp [alookup, hp, ih, Ne.symm hp]

theorem mem_of_alookup {α : Type} {l : List (String × α)} {k : String} {v : α}
    (h : alookup l k = some v) : (k, v) ∈ l := by
  induction l with
  | nil => simp [alookup] at h
  | cons p t ih =>
      by_cases hp : p.1 = k
      · subst hp
        rw [alookup, if_pos rfl] at h
        injection h with h
        subst h
        simp
      · rw [alookup, if_neg hp] at h
        exact List.mem_cons_of_mem _ (ih h)

theorem alookup_adel_self {α : Type} (l : List (String × α)) (k : String) :
    alookup (adel l k) k = none := by
  induction l with
  | nil => rfl
  | cons p t ih =>
      by_cases hp : p.1 = k
      · simp [adel, hp, ih]
      · simp [adel, alookup, hp, ih]

theorem alookup_adel_ne {α : Type} (l : List (String × α)) (k k' : String)
    (h : k' ≠ k) : alookup (adel l k) k' = alookup l k' := by
  induction l with
  | nil => rfl
  | cons p t ih =>
      by_cases hp : p.1 = k
      · subst hp
        simp [adel, alookup, Ne.symm h, ih]
      · simp only [adel, if_neg hp]
        by_cases hk' : p.1 = k'
        · simp [alookup, hk']
        · simp [alookup, hk', ih]

theorem keys_adel_subset {α : Type} (l : List (String × α)) (k : String) :
    ∀ x ∈ (adel l k).map Prod.fst, x ∈ l.map Prod.fst := by
  induction l with
  | nil => simp [adel]
  | cons p t ih =>
      intro x hx
      by_cases hp : p.1 = k
      · simp only [adel, if_pos hp] at hx
        exact List.mem_cons_of_mem _ (ih x hx)
      · simp only [adel, if_neg hp, List.map_cons, List.mem_cons] at hx
        rcases hx with hx | hx
        · simp [hx]
        · exact List.mem_cons_of_mem _ (ih x hx)

theorem keys_adel_nodup {α : Type} (l : List (String × α)) (k : String)
    (h : (l.map Prod.fst).Nodup) : ((adel l k).map Prod.fst).Nodup := by
  induction l with
  | nil => simp [adel]
  | cons p t ih =>
      simp only [List.map_cons, List.nodup_cons] at h
      by_cases hp : p.1 = k
      · simpa [adel, hp] using ih h.2
      · simp only [adel, if_neg hp, List.map_cons, List.nodup_cons]
        exact ⟨fun hc => h.1 (keys_adel_subset t k _ hc), ih h.2⟩

theorem mem_sadd (l : List String) (x y : String) :
    y ∈ sadd l x ↔ y ∈ l ∨ y = x := by
  unfold sadd
  by_cases h : x ∈ l
  · simp only [if_pos h]
    constructor
    · exact Or.inl
    · rintro (hy | rfl) <;> [exact hy; exact h]
  · simp [if_neg h]

theorem sadd_nodup (l : List String) (x : String) (h : l.Nodup) :
    (sadd l x).Nodup := by
  unfold sadd
  by_cases hx : x ∈ l
  · simpa [hx]
  · simp [hx, List.nodup_append, h]

theorem mem_aset {α : Type} {l : List (String × α)} {k : String} {v : α} :
    ∀ q ∈ aset l k v, q ∈ l ∨ q = (k, v) := by
  induction l with
  | nil => simp [aset]
  | cons p t ih =>
      intro q hq
      by_cases hp : p.1 = k
      · simp only [aset, if_pos hp, List.mem_cons] at hq
        rcases hq with hq | hq
        · right; exact hq
        · left; exact List.mem_cons_of_mem _ hq
      · simp only [aset, if_neg hp, List.mem_cons] at hq
        rcases hq with hq | hq
        · left; simp [hq]
        · rcases ih q hq with h | h
          · left; exact List.mem_cons_of_mem _ h
          · right; exact h

theorem mem_adel {α : Type} {l : List (String × α)} {k : String} :
    ∀ q ∈ adel l k, q ∈ l ∧ q.1 ≠ k := by
  induction l with
  | nil => simp [adel]
  | cons p t ih =>
      intro q hq
      by_cases hp : p.1 = k
      · simp only [adel, if_pos hp] at hq
        exact ⟨List.mem_cons_of_mem _ (ih q hq).1, (ih q hq).2⟩
      · simp only [adel, if_neg hp, List.mem_cons] at hq
        rcases hq with hq | hq
        · subst hq; exact ⟨List.mem_cons_self _ _, hp⟩
        · exact ⟨List.mem_cons_of_mem _ (ih q hq).1, (ih q hq).2⟩

theorem alookup_append {α : Type} (l l' : List (String × α)) (k : String) :
    alookup (l ++ l') k =
      match alookup l k with
      | some v => some v
      | none => alookup l' k := by
  induction l with
  | nil => simp [alookup]
  | cons p t ih =>
      by_cases hp : p.1 = k
      · simp [alookup, hp]
      · simp [alookup, hp, ih]

theorem alookup_mapval {α β : Type} (l : List (String × α)) (f : α → β) (k : String) :
    alookup (l.map (fun p => (p.1, f p.2))) k = (alookup l k).map f := by
  induction l with
  | nil => simp [alookup]
  | cons p t ih =>
      by_cases hp : p.1 = k
      · simp [alookup, hp]
      · simp [alookup, hp, ih]

/-! ### Edge / children characterisations -/

theorem mem_children (g : GraphState) (a b : String) :
    b ∈ children g a ↔ isEdge g a b := by
  unfold children isEdge hasEdge
  cases h : alookup g.outg a with
  | none => simp
  | some m => simp [alookup_isSome]

theorem GWF.ends {g : GraphState} (wf : GWF g) {a b : String} (h : isEdge g a b) :
    a ∈ g.nodes ∧ b ∈ g.nodes := by
  unfold isEdge hasEdge at h
  constructor
  · cases ha : alookup g.outg a with
    | none => rw [ha] at h; simp at h
    | some m =>
        exact wf.outg_keys_nodes (a, m) (mem_of_alookup ha)
  · have hinc : incHas g b a = true := by
      rw [← wf.mirror]; exact h
    unfold incHas at hinc
    cases hb : alookup g.inc b with
    | none => rw [hb] at hinc; simp at hinc
    | some s =>
        exact wf.inc_keys_nodes (b, s) (mem_of_alookup hb)

theorem bool_ext {a b : Bool} (h : a = true ↔ b = true) : a = b := by
  cases a <;> cases b <;> simp_all

/-! ### Effect of each graph operation on the two edge indexes -/

theorem addNode_outg (g : GraphState) (e : String) : (addNode g e).outg = g.outg := rfl

theorem addNode_inc (g : GraphState) (e : String) : (addNode g e).inc = g.inc := rfl

theorem addNode_nodes (g : GraphState) (e : String) :
    (addNode g e).nodes = sadd g.nodes e := rfl

theorem addEdge_nodes (g : GraphState) (a b : String) (d : Nat) :
    (addEdge g a b d).nodes = sadd (sadd g.nodes a) b := rfl

theorem addEdge_outg (g : GraphState) (a b : String) (d : Nat) :
    (addEdge g a b d).outg =
      match alookup g.outg a with
      | some m => aset g.outg a (aset m b d)
      | none => g.outg ++ [(a, [(b, d)])] := rfl

theorem addEdge_inc (g : GraphState) (a b : String) (d : Nat) :
    (addEdge g a b d).inc =
      match alookup g.inc b with
      | some s => aset g.inc b (sadd s a)
      | none => g.inc ++ [(b, [a])] := rfl

theorem removeEdge_nodes (g : GraphState) (a b : String) :
    (removeEdge g a b).nodes = g.nodes := rfl

theorem removeEdge_outg (g : GraphState) (a b : String) :
    (removeEdge g a b).outg =
      match alookup g.outg a with
      | some m => aset g.outg a (adel m b)
      | none => g.outg := rfl

theorem removeEdge_inc (g : GraphState) (a b : String) :
    (removeEdge g a b).inc =
      match alookup g.inc b with
      | some s => aset g.inc b (s.erase a)
      | none => g.inc := rfl

/-- The `incoming` cleanup loop of `removeNode`. -/
def rmIncFold (e : String) (out : List (String × Nat)) (acc : List (String × List String)) :
    List (String × List String) :=
  out.foldl
    (fun acc p =>
      match alookup acc p.1 with
      | some s => aset acc p.1 (s.erase e)
      | none => acc)
    acc

theorem removeNode_nodes (g : GraphState) (e : String) :
    (removeNode g e).nodes = g.nodes.erase e := rfl

theorem removeNode_outg (g : GraphState) (e : String) :
    (removeNode g e).outg = (adel g.outg e).map (fun p => (p.1, adel p.2 e)) := rfl

theorem removeNode_inc (g : GraphState) (e : String) :
    (removeNode g e).inc =
      adel
        (match alookup g.outg e with
         | some out => rmIncFold e out g.inc
         | none => g.inc)
        e := rfl

/-- `getEdgeData` as an `Option.bind`. -/
theorem getEdgeData_eq (g : GraphState) (a b : String) :
    getEdgeData g a b = (alookup g.outg a).bind (fun m => alookup m b) := by
  unfold getEdgeData
  cases h : alookup g.outg a <;> simp

theorem hasEdge_eq (g : GraphState) (a b : String) :
    hasEdge g a b = ((alookup g.outg a).bind (fun m => alookup m b)).isSome := by
  unfold hasEdge
  cases h : alookup g.outg a <;> simp

theorem isEdge_iff_getEdgeData (g : GraphState) (a b : String) :
    isEdge g a b ↔ (getEdgeData g a b).isSome = true := by
  rw [isEdge, hasEdge_eq, getEdgeData_eq]

theorem getEdgeData_addEdge_self (g : GraphState) (a b : String) (d : Nat) :
    getEdgeData (addEdge g a b d) a b = some d := by
  rw [getEdgeData_eq, addEdge_outg]
  cases h : alookup g.outg a with
  | some m => simp [alookup_aset_self]
  | none => simp [alookup_append, h, alookup]

theorem getEdgeData_addEdge_other (g : GraphState) (a b : String) (d : Nat)
    (x y : String) (hne : ¬(x = a ∧ y = b)) :
    getEdgeData (addEdge g a b d) x y = getEdgeData g x y := by
  rw [getEdgeData_eq, getEdgeData_eq, addEdge_outg]
  cases h : alookup g.outg a with
  | some m =>
      by_cases hx : x = a
      · subst hx
        have hy : y ≠ b := fun hy => hne ⟨rfl, hy⟩
        simp [alookup_aset_self, h, alookup_aset_ne m b y d hy]
      · simp [alookup_aset_ne g.outg a x _ hx]
  | none =>
      by_cases hx : x = a
      · subst hx
        have hy : y ≠ b := fun hy => hne ⟨rfl, hy⟩
        simp [alookup_append, h, alookup, Ne.symm hy]
      · simp only [alookup_append, h, alookup, if_neg (Ne.symm hx)]
        cases hz : alookup g.outg x <;> simp [hz]

theorem isEdge_addEdge (g : GraphState) (a b : String) (d : Nat) (x y : String) :
    isEdge (addEdge g a b d) x y ↔ (x = a ∧ y = b) ∨ isEdge g x y := by
  by_cases hxy : x = a ∧ y = b
  · obtain ⟨rfl, rfl⟩ := hxy
    simp [isEdge_iff_getEdgeData, getEdgeData_addEdge_self]
  · rw [isEdge_iff_getEdgeData, getEdgeData_addEdge_other g a b d x y hxy,
      ← isEdge_iff_getEdgeData]
    tauto

theorem incHas_addEdge (g : GraphState) (a b : String) (d : Nat) (x y : String) :
    incHas (addEdge g a b d) y x = true ↔ (x = a ∧ y = b) ∨ incHas g y x = true := by
  unfold incHas
  rw [addEdge_inc]
  cases h : alookup g.inc b with
  | some s =>
      by_cases hy : y = b
      · subst hy
        rw [alookup_aset_self, h]
        simp only [List.elem_iff]
        rw [mem_sadd]
        tauto
      · rw [alookup_aset_ne g.inc b y _ hy]
        have hc : ¬(x = a ∧ y = b) := fun hc => hy hc.2
        cases hz : alookup g.inc y <;> simp [hc]
  | none =>
      rw [alookup_append]
      by_cases hy : y = b
      · subst hy
        rw [h]
        simp [alookup, List.elem_iff]
      · have hb : alookup [(b, [a])] y = none := by
          simp [alookup, Ne.symm hy]
        have hc : ¬(x = a ∧ y = b) := fun hc => hy hc.2
        cases hz : alookup g.inc y <;> simp [hz, hb, hc]

theorem isEdge_removeEdge (g : GraphState) (a b : String) (x y : String) :
    isEdge (removeEdge g a b) x y ↔ isEdge g x y ∧ ¬(x = a ∧ y = b) := by
  rw [isEdge_iff_getEdgeData, isEdge_iff_getEdgeData, getEdgeData_eq, getEdgeData_eq,
    removeEdge_outg]
  cases h : alookup g.outg a with
  | some m =>
      by_cases hx : x = a
      · subst hx
        rw [alookup_aset_self, h]
        by_cases hy : y = b
        · subst hy
          simp [alookup_adel_self]
        · simp [alookup_adel_ne m b y hy, hy]
      · simp [alookup_aset_ne g.outg a x _ hx, hx]
  | none =>
      by_cases hx : x = a
      · subst hx
        simp [h]
      · simp [h, hx]

theorem incHas_removeEdge (g : GraphState) (a b : String) (x y : String)
    (hnd : ∀ p ∈ g.inc, p.2.Nodup) :
    incHas (removeEdge g a b) y x = true ↔ incHas g y x = true ∧ ¬(x = a ∧ y = b) := by
  unfold incHas
  rw [removeEdge_inc]
  cases h : alookup g.inc b with
  | some s =>
      by_cases hy : y = b
      · subst hy
        rw [alookup_aset_self, h]
        by_cases hx : x = a
        · subst hx
          have hno : x ∉ s.erase x := (hnd (y, s) (mem_of_alookup h)).not_mem_erase
          simp [List.elem_iff, hno]
        · simp [List.elem_iff, List.mem_erase_of_ne hx, hx]
      · rw [alookup_aset_ne g.inc b y _ hy]
        have hc : ¬(x = a ∧ y = b) := fun hc => hy hc.2
        cases hz : alookup g.inc y <;> simp [hc]
  | none =>
      simp only [h]
      cases hz : alookup g.inc y with
      | none => simp [hz]
      | some s =>
          have hy : y ≠ b := by
            intro e
            rw [e, h] at hz
            cases hz
          have hc : ¬(x = a ∧ y = b) := fun hc => hy hc.2
          simp [hz, hc]

theorem keys_mapval {α β : Type} (l : List (String × α)) (f : α → β) :
    (l.map (fun p => (p.1, f p.2))).map Prod.fst = l.map Prod.fst := by
  induction l with
  | nil => rfl
  | cons p t ih => simp [ih]

theorem isEdge_removeNode (g : GraphState) (e x y : String) :
    isEdge (removeNode g e) x y ↔ isEdge g x y ∧ x ≠ e ∧ y ≠ e := by
  rw [isEdge_iff_getEdgeData, isEdge_iff_getEdgeData, getEdgeData_eq, getEdgeData_eq,
    removeNode_outg]
  rw [alookup_mapval (adel g.outg e) (fun m => adel m e) x]
  by_cases hx : x = e
  · subst hx
    simp [alookup_adel_self]
  · rw [alookup_adel_ne g.outg e x hx]
    cases hz : alookup g.outg x with
    | none => simp
    | some m =>
        by_cases hy : y = e
        · subst hy
          simp [alookup_adel_self]
        · simp [alookup_adel_ne m e y hy, hx, hy]

theorem rmIncFold_nil (e : String) (acc : List (String × List String)) :
    rmIncFold e [] acc = acc := rfl

theorem rmIncFold_cons (e : String) (p : String × Nat) (t : List (String × Nat))
    (acc : List (String × List String)) :
    rmIncFold e (p :: t) acc =
      rmIncFold e t
        (match alookup acc p.1 with
         | some s => aset acc p.1 (s.erase e)
         | none => acc) := rfl

theorem rmIncFold_lookup_not_mem (e : String) (out : List (String × Nat))
    (acc : List (String × List String)) (y : String) (h : y ∉ out.map Prod.fst) :
    alookup (rmIncFold e out acc) y = alookup acc y := by
  induction out generalizing acc with
  | nil => rfl
  | cons p t ih =>
      simp only [List.map_cons, List.mem_cons] at h
      push_neg at h
      rw [rmIncFold_cons]
      cases ha : alookup acc p.1 with
      | none => exact ih _ h.2
      | some s =>
          rw [ih _ h.2, alookup_aset_ne acc p.1 y _ h.1]

theorem rmIncFold_lookup_mem (e : String) (out : List (String × Nat))
    (acc : List (String × List String)) (y : String)
    (hnd : (out.map Prod.fst).Nodup) (h : y ∈ out.map Prod.fst) :
    alookup (rmIncFold e out acc) y = (alookup acc y).map (fun s => s.erase e) := by
  induction out generalizing acc with
  | nil => simp at h
  | cons p t ih =>
      simp only [List.map_cons, List.nodup_cons] at hnd
      simp only [List.map_cons, List.mem_cons] at h
      rw [rmIncFold_cons]
      by_cases hy : y = p.1
      · cases ha : alookup acc p.1 with
        | none =>
            rw [hy, rmIncFold_lookup_not_mem e t acc p.1 hnd.1, ha]
            rfl
        | some s =>
            rw [hy, rmIncFold_lookup_not_mem e t _ p.1 hnd.1, alookup_aset_self, ha]
            rfl
      · have hyt : y ∈ t.map Prod.fst := by
          rcases h with h | h
          · exact absurd h hy
          · exact h
        cases ha : alookup acc p.1 with
        | none => exact ih _ hnd.2 hyt
        | some s =>
            rw [ih _ hnd.2 hyt, alookup_aset_ne acc p.1 y _ hy]

theorem rmIncFold_keys (e : String) (out : List (String × Nat))
    (acc : List (String × List String)) :
    (rmIncFold e out acc).map Prod.fst = acc.map Prod.fst := by
  induction out generalizing acc with
  | nil => rfl
  | cons p t ih =>
      rw [rmIncFold_cons]
      cases ha : alookup acc p.1 with
      | none => exact ih _
      | some s =>
          rw [ih _, keys_aset_of_mem]
          have hs : (alookup acc p.1).isSome = true := by rw [ha]; rfl
          exact (alookup_isSome _ _).mp hs

theorem rmIncFold_inner_nodup (e : String) (out : List (String × Nat))
    (acc : List (String × List String)) (hnd : ∀ p ∈ acc, p.2.Nodup) :
    ∀ q ∈ rmIncFold e out acc, q.2.Nodup := by
  induction out generalizing acc with
  | nil => exact hnd
  | cons p t ih =>
      rw [rmIncFold_cons]
      cases ha : alookup acc p.1 with
      | none => exact ih _ hnd
      | some s =>
          refine ih _ ?_
          intro q hq
          rcases mem_aset q hq with h | h
          · exact hnd q h
          · subst h
            exact (hnd (p.1, s) (mem_of_alookup ha)).erase e

theorem incHas_removeNode (g : GraphState) (wf : GWF g) (e x y : String) :
    incHas (removeNode g e) y x = true ↔ incHas g y x = true ∧ x ≠ e ∧ y ≠ e := by
  unfold incHas
  rw [removeNode_inc]
  by_cases hy : y = e
  · subst hy
    rw [alookup_adel_self]
    simp
  · rw [alookup_adel_ne _ e y hy]
    cases houtg : alookup g.outg e with
    | none =>
        have hne : incHas g y x = true → x ≠ e := by
          intro hin hx
          subst hx
          have : hasEdge g x y = true := by rw [wf.mirror]; exact hin
          rw [hasEdge_eq, houtg] at this
          simp at this
        cases hz : alookup g.inc y with
        | none => simp [hz]
        | some s =>
            unfold incHas at hne
            rw [hz] at hne
            simp only [hz]
            constructor
            · intro hc
              exact ⟨hc, hne hc, hy⟩
            · intro hc
              exact hc.1
    | some out =>
        have hond : (out.map Prod.fst).Nodup :=
          wf.outg_inner_nodup (e, out) (mem_of_alookup houtg)
        by_cases hmem : y ∈ out.map Prod.fst
        · rw [rmIncFold_lookup_mem e out g.inc y hond hmem]
          cases hz : alookup g.inc y with
          | none => simp [hz]
          | some s =>
              have hsnd : s.Nodup := wf.inc_inner_nodup (y, s) (mem_of_alookup hz)
              simp only [hz, Option.map_some]
              by_cases hx : x = e
              · subst hx
                simp [List.elem_iff, hsnd.not_mem_erase]
              · simp [List.elem_iff, List.mem_erase_of_ne hx, hx, hy]
        · rw [rmIncFold_lookup_not_mem e out g.inc y hmem]
          have hne : incHas g y x = true → x ≠ e := by
            intro hin hx
            subst hx
            have hed : hasEdge g x y = true := by rw [wf.mirror]; exact hin
            rw [hasEdge_eq, houtg] at hed
            simp only [Option.some_bind] at hed
            rw [Option.isSome_iff_exists] at hed
            obtain ⟨v, hv⟩ := hed
            have : (alookup out y).isSome = true := by rw [hv]; rfl
            exact hmem ((alookup_isSome _ _).mp this)
          cases hz : alookup g.inc y with
          | none => simp
          | some s =>
              unfold incHas at hne
              rw [hz] at hne
              simp only [hz]
              constructor
              · intro hc
                exact ⟨hc, hne hc, hy⟩
              · intro hc
                exact hc.1

/-! ### Preservation of well-formedness by every graph operation -/

theorem GWF_empty : GWF emptyGraph := by
  constructor <;> simp [emptyGraph, hasEdge, incHas, alookup]

theorem GWF_addNode {g : GraphState} (wf : GWF g) (e : String) : GWF (addNode g e) := by
  have hout : (addNode g e).outg = g.outg := rfl
  have hinc : (addNode g e).inc = g.inc := rfl
  have hn : (addNode g e).nodes = sadd g.nodes e := rfl
  constructor
  · rw [hn]; exact sadd_nodup _ _ wf.nodes_nodup
  · rw [hout]; exact wf.outg_keys_nodup
  · rw [hinc]; exact wf.inc_keys_nodup
  · rw [hout]; exact wf.outg_inner_nodup
  · rw [hinc]; exact wf.inc_inner_nodup
  · rw [hout, hn]
    intro p hp
    exact (mem_sadd _ _ _).mpr (Or.inl (wf.outg_keys_nodes p hp))
  · rw [hinc, hn]
    intro p hp
    exact (mem_sadd _ _ _).mpr (Or.inl (wf.inc_keys_nodes p hp))
  · intro a b
    show hasEdge g a b = incHas g b a
    exact wf.mirror a b

theorem GWF_addEdge {g : GraphState} (wf : GWF g) (a b : String) (d : Nat) :
    GWF (addEdge g a b d) := by
  have hn : (addEdge g a b d).nodes = sadd (sadd g.nodes a) b := rfl
  constructor
  · rw [hn]; exact sadd_nodup _ _ (sadd_nodup _ _ wf.nodes_nodup)
  · rw [addEdge_outg]
    cases h : alookup g.outg a with
    | some m =>
        rw [keys_aset_of_mem]
        · exact wf.outg_keys_nodup
        · exact (alookup_isSome _ _).mp (by rw [h]; rfl)
    | none =>
        have ha : a ∉ g.outg.map Prod.fst := (alookup_eq_none _ _).mp h
        simp [List.nodup_append, wf.outg_keys_nodup, ha]
  · rw [addEdge_inc]
    cases h : alookup g.inc b with
    | some s =>
        rw [keys_aset_of_mem]
        · exact wf.inc_keys_nodup
        · exact (alookup_isSome _ _).mp (by rw [h]; rfl)
    | none =>
        have hb : b ∉ g.inc.map Prod.fst := (alookup_eq_none _ _).mp h
        simp [List.nodup_append, wf.inc_keys_nodup, hb]
  · rw [addEdge_outg]
    cases h : alookup g.outg a with
    | some m =>
        intro q hq
        rcases mem_aset q hq with hq | hq
        · exact wf.outg_inner_nodup q hq
        · subst hq
          by_cases hb : b ∈ m.map Prod.fst
          · rw [keys_aset_of_mem _ _ _ hb]
            exact wf.outg_inner_nodup (a, m) (mem_of_alookup h)
          · rw [keys_aset_of_not_mem _ _ _ hb]
            simp [List.nodup_append, wf.outg_inner_nodup (a, m) (mem_of_alookup h), hb]
    | none =>
        intro q hq
        rcases List.mem_append.mp hq with hq | hq
        · exact wf.outg_inner_nodup q hq
        · simp only [List.mem_singleton] at hq
          subst hq
          simp
  · rw [addEdge_inc]
    cases h : alookup g.inc b with
    | some s =>
        intro q hq
        rcases mem_aset q hq with hq | hq
        · exact wf.inc_inner_nodup q hq
        · subst hq
          exact sadd_nodup _ _ (wf.inc_inner_nodup (b, s) (mem_of_alookup h))
    | none =>
        intro q hq
        rcases List.mem_append.mp hq with hq | hq
        · exact wf.inc_inner_nodup q hq
        · simp only [List.mem_singleton] at hq
          subst hq
          simp
  · rw [addEdge_outg, hn]
    have hmem : ∀ x ∈ g.nodes, x ∈ sadd (sadd g.nodes a) b := by
      intro x hx
      exact (mem_sadd _ _ _).mpr (Or.inl ((mem_sadd _ _ _).mpr (Or.inl hx)))
    have hamem : a ∈ sadd (sadd g.nodes a) b :=
      (mem_sadd _ _ _).mpr (Or.inl ((mem_sadd _ _ _).mpr (Or.inr rfl)))
    cases h : alookup g.outg a with
    | some m =>
        intro q hq
        rcases mem_aset q hq with hq | hq
        · exact hmem _ (wf.outg_keys_nodes q hq)
        · subst hq
          exact hamem
    | none =>
        intro q hq
        rcases List.mem_append.mp hq with hq | hq
        · exact hmem _ (wf.outg_keys_nodes q hq)
        · simp only [List.mem_singleton] at hq
          subst hq
          exact hamem
  · rw [addEdge_inc, hn]
    have hmem : ∀ x ∈ g.nodes, x ∈ sadd (sadd g.nodes a) b := by
      intro x hx
      exact (mem_sadd _ _ _).mpr (Or.inl ((mem_sadd _ _ _).mpr (Or.inl hx)))
    have hbmem : b ∈ sadd (sadd g.nodes a) b := (mem_sadd _ _ _).mpr (Or.inr rfl)
    cases h : alookup g.inc b with
    | some s =>
        intro q hq
        rcases mem_aset q hq with hq | hq
        · exact hmem _ (wf.inc_keys_nodes q hq)
        · subst hq
          exact hbmem
    | none =>
        intro q hq
        rcases List.mem_append.mp hq with hq | hq
        · exact hmem _ (wf.inc_keys_nodes q hq)
        · simp only [List.mem_singleton] at hq
          subst hq
          exact hbmem
  · intro x y
    apply bool_ext
    rw [show (hasEdge (addEdge g a b d) x y = true) ↔ isEdge (addEdge g a b d) x y from Iff.rfl]
    rw [isEdge_addEdge, incHas_addEdge]
    have : isEdge g x y ↔ incHas g y x = true := by
      rw [isEdge, wf.mirror]
    tauto

theorem GWF_removeEdge {g : GraphState} (wf : GWF g) (a b : String) :
    GWF (removeEdge g a b) := by
  have hn : (removeEdge g a b).nodes = g.nodes := rfl
  constructor
  · rw [hn]; exact wf.nodes_nodup
  · rw [removeEdge_outg]
    cases h : alookup g.outg a with
    | some m =>
        rw [keys_aset_of_mem]
        · exact wf.outg_keys_nodup
        · exact (alookup_isSome _ _).mp (by rw [h]; rfl)
    | none => exact wf.outg_keys_nodup
  · rw [removeEdge_inc]
    cases h : alookup g.inc b with
    | some s =>
        rw [keys_aset_of_mem]
        · exact wf.inc_keys_nodup
        · exact (alookup_isSome _ _).mp (by rw [h]; rfl)
    | none => exact wf.inc_keys_nodup
  · rw [removeEdge_outg]
    cases h : alookup g.outg a with
    | some m =>
        intro q hq
        rcases mem_aset q hq with hq | hq
        · exact wf.outg_inner_nodup q hq
        · subst hq
          exact keys_adel_nodup _ _ (wf.outg_inner_nodup (a, m) (mem_of_alookup h))
    | none => exact wf.outg_inner_nodup
  · rw [removeEdge_inc]
    cases h : alookup g.inc b with
    | some s =>
        intro q hq
        rcases mem_aset q hq with hq | hq
        · exact wf.inc_inner_nodup q hq
        · subst hq
          exact (wf.inc_inner_nodup (b, s) (mem_of_alookup h)).erase a
    | none => exact wf.inc_inner_nodup
  · rw [removeEdge_outg, hn]
    cases h : alookup g.outg a with
    | some m =>
        intro q hq
        rcases mem_aset q hq with hq | hq
        · exact wf.outg_keys_nodes q hq
        · subst hq
          exact wf.outg_keys_nodes (a, m) (mem_of_alookup h)
    | none => exact wf.outg_keys_nodes
  · rw [removeEdge_inc, hn]
    cases h : alookup g.inc b with
    | some s =>
        intro q hq
        rcases mem_aset q hq with hq | hq
        · exact wf.inc_keys_nodes q hq
        · subst hq
          exact wf.inc_keys_nodes (b, s) (mem_of_alookup h)
    | none => exact wf.inc_keys_nodes
  · intro x y
    apply bool_ext
    rw [show (hasEdge (removeEdge g a b) x y = true) ↔ isEdge (removeEdge g a b) x y from
      Iff.rfl]
    rw [isEdge_removeEdge, incHas_removeEdge g a b x y wf.inc_inner_nodup]
    have : isEdge g x y ↔ incHas g y x = true := by
      rw [isEdge, wf.mirror]
    tauto

theorem GWF_removeNode {g : GraphState} (wf : GWF g) (e : String) :
    GWF (removeNode g e) := by
  have hn : (removeNode g e).nodes = g.nodes.erase e := rfl
  have hkeys :
      (match alookup g.outg e with
       | some out => rmIncFold e out g.inc
       | none => g.inc).map Prod.fst = g.inc.map Prod.fst := by
    cases h : alookup g.outg e with
    | some out => exact rmIncFold_keys e out g.inc
    | none => rfl
  have hinner :
      ∀ q ∈
        (match alookup g.outg e with
         | some out => rmIncFold e out g.inc
         | none => g.inc), q.2.Nodup := by
    cases h : alookup g.outg e with
    | some out => exact rmIncFold_inner_nodup e out g.inc wf.inc_inner_nodup
    | none => exact wf.inc_inner_nodup
  have hmemkeys :
      ∀ q ∈
        (match alookup g.outg e with
         | some out => rmIncFold e out g.inc
         | none => g.inc), q.1 ∈ g.inc.map Prod.fst := by
    intro q hq
    rw [← hkeys]
    exact List.mem_map.mpr ⟨q, hq, rfl⟩
  constructor
  · rw [hn]; exact wf.nodes_nodup.erase e
  · rw [removeNode_outg, keys_mapval (adel g.outg e) (fun m => adel m e)]
    exact keys_adel_nodup _ _ wf.outg_keys_nodup
  · rw [removeNode_inc]
    apply keys_adel_nodup
    rw [hkeys]
    exact wf.inc_keys_nodup
  · rw [removeNode_outg]
    intro q hq
    obtain ⟨p, hp, hpe⟩ := List.mem_map.mp hq
    subst hpe
    exact keys_adel_nodup _ _ (wf.outg_inner_nodup p (mem_adel p hp).1)
  · rw [removeNode_inc]
    intro q hq
    exact hinner q (mem_adel q hq).1
  · rw [removeNode_outg, hn]
    intro q hq
    obtain ⟨p, hp, hpe⟩ := List.mem_map.mp hq
    subst hpe
    exact List.mem_erase_of_ne (mem_adel p hp).2 |>.mpr (wf.outg_keys_nodes p (mem_adel p hp).1)
  · rw [removeNode_inc, hn]
    intro q hq
    have h1 := mem_adel q hq
    have h2 : q.1 ∈ g.inc.map Prod.fst := hmemkeys q h1.1
    obtain ⟨p, hp, hpe⟩ := List.mem_map.mp h2
    refine List.mem_erase_of_ne h1.2 |>.mpr ?_
    rw [← hpe]
    exact wf.inc_keys_nodes p hp
  · intro x y
    apply bool_ext
    rw [show (hasEdge (removeNode g e) x y = true) ↔ isEdge (removeNode g e) x y from
      Iff.rfl]
    rw [isEdge_removeNode, incHas_removeNode g wf e x y]
    have : isEdge g x y ↔ incHas g y x = true := by
      rw [isEdge, wf.mirror]
    tauto

theorem GWF_applyGOp {g : GraphState} (wf : GWF g) (op : GOp) : GWF (applyGOp g op) := by
  cases op with
  | addNode e => exact GWF_addNode wf e
  | removeNode e => exact GWF_removeNode wf e
  | addEdge a b d => exact GWF_addEdge wf a b d
  | removeEdge a b => exact GWF_removeEdge wf a b

theorem GReachable.wf {g : GraphState} (h : GReachable g) : GWF g := by
  obtain ⟨ops, hops⟩ := h
  subst hops
  unfold runGOps
  induction ops using List.reverseRecOn with
  | nil => exact GWF_empty
  | append_singleton ops op ih =>
      rw [List.foldl_append, List.foldl_cons, List.foldl_nil]
      exact GWF_applyGOp ih op

/-! ## Verification of `topological()`

`StInv` is the state invariant tying `result` to `visited`: the result list is
the reverse of the visited list, is duplicate-free, contains only graph nodes,
and is topologically sorted (every edge goes rightwards in `result`). -/

def StInv (g : GraphState) (visited result : List String) : Prop :=
  result = visited.reverse ∧ visited.Nodup ∧ (∀ x ∈ visited, x ∈ g.nodes) ∧
    (∀ a b, isEdge g a b → a ∈ result →
      b ∈ result ∧ result.indexOf a < result.indexOf b)

/-- Postcondition of a successful `topoVisit node` call. -/
def TPOST (g : GraphState) (node : String) (st st' : TopoSt) : Prop :=
  st'.1 = st.1 ∧
  (∃ d, st'.2.1 = st.2.1 ++ d) ∧
  node ∈ st'.2.1 ∧
  (∀ x ∈ st'.2.1, x ∉ st.2.1 → x ∉ st.1) ∧
  (StInv g st.2.1 st.2.2 → StInv g st'.2.1 st'.2.2)

/-- Postcondition of a successful `topoFold cs` call. -/
def FPOST (g : GraphState) (cs : List String) (st st' : TopoSt) : Prop :=
  st'.1 = st.1 ∧
  (∃ d, st'.2.1 = st.2.1 ++ d) ∧
  (∀ c ∈ cs, c ∈ st'.2.1) ∧
  (∀ x ∈ st'.2.1, x ∉ st.2.1 → x ∉ st.1) ∧
  (StInv g st.2.1 st.2.2 → StInv g st'.2.1 st'.2.2)

theorem topoFold_post (g : GraphState) (fuel : Nat)
    (IH : ∀ node st st', topoVisit g fuel node st = some (some st') →
      node ∈ g.nodes → TPOST g node st st') :
    ∀ cs st st', topoFold g fuel cs st = some (some st') →
      (∀ c ∈ cs, c ∈ g.nodes) → FPOST g cs st st' := by
  intro cs
  induction cs with
  | nil =>
      intro st st' heq _
      rw [topoFold] at heq
      injection heq with heq
      injection heq with heq
      subst heq
      exact ⟨rfl, ⟨[], by simp⟩, by simp, fun x hx hnx => absurd hx hnx, id⟩
  | cons c cs ih =>
      intro st st' heq hmem
      rw [topoFold] at heq
      cases hv : topoVisit g fuel c st with
      | none => rw [hv] at heq; cases heq
      | some o =>
          cases o with
          | none => rw [hv] at heq; cases heq
          | some st1 =>
              rw [hv] at heq
              have hpost := IH c st st1 hv (hmem c (by simp))
              have hfold := ih st1 st' heq (fun x hx => hmem x (by simp [hx]))
              obtain ⟨p1, ⟨d1, p2⟩, p3, p4, p5⟩ := hpost
              obtain ⟨q1, ⟨d2, q2⟩, q3, q4, q5⟩ := hfold
              refine ⟨q1.trans p1, ⟨d1 ++ d2, by rw [q2, p2, List.append_assoc]⟩, ?_, ?_, ?_⟩
              · intro x hx
                rcases List.mem_cons.mp hx with hx | hx
                · subst hx
                  rw [q2]
                  exact List.mem_append_left _ p3
                · exact q3 x hx
              · intro x hx hnx
                by_cases hx1 : x ∈ st1.2.1
                · exact p4 x hx1 hnx
                · rw [← p1]
                  exact q4 x hx hx1
              · intro hInv
                exact q5 (p5 hInv)

theorem topoVisit_post (g : GraphState) (wf : GWF g) :
    ∀ fuel node st st', topoVisit g fuel node st = some (some st') →
      node ∈ g.nodes → TPOST g node st st' := by
  intro fuel
  induction fuel with
  | zero =>
      intro node st st' heq _
      rw [topoVisit] at heq
      cases heq
  | succ fuel ih =>
      intro node st st' heq hnode
      rw [topoVisit] at heq
      by_cases h1 : node ∈ st.1
      · rw [if_pos h1] at heq
        injection heq with heq
        cases heq
      · rw [if_neg h1] at heq
        by_cases h2 : node ∈ st.2.1
        · rw [if_pos h2] at heq
          injection heq with heq
          injection heq with heq
          subst heq
          exact ⟨rfl, ⟨[], by simp⟩, h2, fun x hx hnx => absurd hx hnx, id⟩
        · rw [if_neg h2] at heq
          cases hfold : topoFold g fuel (children g node) (st.1 ++ [node], st.2.1, st.2.2) with
          | none => rw [hfold] at heq; cases heq
          | some o =>
              cases o with
              | none => rw [hfold] at heq; cases heq
              | some st1 =>
                  rw [hfold] at heq
                  injection heq with heq
                  injection heq with heq
                  subst heq
                  have hcs : ∀ c ∈ children g node, c ∈ g.nodes := by
                    intro c hc
                    exact (wf.ends ((mem_children g node c).mp hc)).2
                  have hfp := topoFold_post g fuel ih (children g node) _ st1 hfold hcs
                  obtain ⟨f1, ⟨d, f2⟩, f3, f4, f5⟩ := hfp
                  simp only at f1 f2 f3 f4 f5
                  -- node is fresh: not in the fold's new nodes either
                  have hnodefresh : node ∉ st1.2.1 := by
                    intro hmem
                    by_cases hv : node ∈ st.2.1
                    · exact h2 hv
                    · have := f4 node hmem hv
                      simp [f1] at this
                  constructor
                  · -- temp is restored
                    show st1.1.erase node = st.1
                    rw [f1, List.erase_append_right _ h1]
                    simp
                  refine ⟨⟨d ++ [node], by rw [f2, List.append_assoc]⟩, ?_, ?_, ?_⟩
                  · simp
                  · intro x hx hnx
                    rcases List.mem_append.mp hx with hx | hx
                    · have := f4 x hx hnx
                      simp only [List.mem_append, List.mem_singleton] at this
                      exact fun hc => this (Or.inl hc)
                    · simp only [List.mem_singleton] at hx
                      subst hx
                      exact h1
                  · intro hInv
                    have hInv1 := f5 hInv
                    obtain ⟨i1, i2, i3, i4⟩ := hInv1
                    refine ⟨?_, ?_, ?_, ?_⟩
                    · show node :: st1.2.2 = (st1.2.1 ++ [node]).reverse
                      rw [List.reverse_append, i1]
                      rfl
                    · show (st1.2.1 ++ [node]).Nodup
                      simp [List.nodup_append, i2, hnodefresh]
                    · intro x hx
                      rcases List.mem_append.mp hx with hx | hx
                      · exact i3 x hx
                      · simp only [List.mem_singleton] at hx
                        subst hx
                        exact hnode
                    · intro a b hab hamem
                      have hbv : b ∈ st1.2.1 → b ∈ st1.2.2 := by
                        intro hb
                        rw [i1]
                        exact List.mem_reverse.mpr hb
                      rcases List.mem_cons.mp hamem with ha | ha
                      · -- a = node: its children were all completed by the fold
                        subst ha
                        have hbc : b ∈ children g a := (mem_children g a b).mpr hab
                        have hbmem : b ∈ st1.2.1 := f3 b hbc
                        have hbne : b ≠ a := fun hc => hnodefresh (hc ▸ hbmem)
                        have hbr : b ∈ st1.2.2 := hbv hbmem
                        refine ⟨List.mem_cons_of_mem _ hbr, ?_⟩
                        rw [List.indexOf_cons_self, List.indexOf_cons_ne _ (Ne.symm hbne)]
                        exact Nat.succ_pos _
                      · have hres := i4 a b hab ha
                        have hane : a ≠ node := by
                          intro hc
                          subst hc
                          exact hnodefresh (by rw [i1] at ha; exact List.mem_reverse.mp ha)
                        have hbne : b ≠ node := by
                          intro hc
                          subst hc
                          exact hnodefresh
                            (by rw [i1] at hres; exact List.mem_reverse.mp hres.1)
                        refine ⟨List.mem_cons_of_mem _ hres.1, ?_⟩
                        rw [List.indexOf_cons_ne _ (Ne.symm hane),
                          List.indexOf_cons_ne _ (Ne.symm hbne)]
                        exact Nat.succ_lt_succ hres.2

/-! ### Fuel sufficiency for `topoVisit` on acyclic graphs -/

theorem length_filter_le_of_imp (l : List String) (p q : String → Bool)
    (h : ∀ x ∈ l, q x = true → p x = true) :
    (l.filter q).length ≤ (l.filter p).length := by
  induction l with
  | nil => simp
  | cons y t ih =>
      have ht : ∀ x ∈ t, q x = true → p x = true :=
        fun x hx => h x (List.mem_cons_of_mem _ hx)
      cases hq : q y with
      | true =>
          have hp := h y (List.mem_cons_self _ _) hq
          simp only [List.filter_cons, hq, hp, if_true]
          exact Nat.succ_le_succ (ih ht)
      | false =>
          cases hp : p y with
          | true =>
              simp only [List.filter_cons, hq, hp]
              exact Nat.le_succ_of_le (ih ht)
          | false =>
              simp only [List.filter_cons, hq, hp]
              exact ih ht

theorem length_filter_lt (l : List String) (p q : String → Bool)
    (h : ∀ x ∈ l, q x = true → p x = true) (x : String) (hx : x ∈ l)
    (hpx : p x = true) (hqx : q x = false) :
    (l.filter q).length < (l.filter p).length := by
  induction l with
  | nil => simp at hx
  | cons y t ih =>
      have ht : ∀ z ∈ t, q z = true → p z = true :=
        fun z hz => h z (List.mem_cons_of_mem _ hz)
      by_cases hxy : x = y
      · subst hxy
        simp only [List.filter_cons, hqx, hpx]
        exact Nat.lt_succ_of_le (length_filter_le_of_imp t p q ht)
      · have hxt : x ∈ t := by
          rcases List.mem_cons.mp hx with hc | hc
          · exact absurd hc hxy
          · exact hc
        cases hq : q y with
        | true =>
            have hp := h y (List.mem_cons_self _ _) hq
            simp only [List.filter_cons, hq, hp, if_true]
            exact Nat.succ_lt_succ (ih ht hxt)
        | false =>
            cases hp : p y with
            | true =>
                simp only [List.filter_cons, hq, hp]
                exact Nat.lt_succ_of_lt (ih ht hxt)
            | false =>
                simp only [List.filter_cons, hq, hp]
                exact ih ht hxt

/-- Graph nodes not yet coloured (neither in-progress nor done): the
recursion-depth measure of `topoVisit`. -/
def freeT (g : GraphState) (temp visited : List String) : Nat :=
  (g.nodes.filter (fun n => !temp.contains n && !visited.contains n)).length

theorem freeT_mono (g : GraphState) (temp visited : List String) (d : List String) :
    freeT g temp (visited ++ d) ≤ freeT g temp visited := by
  apply length_filter_le_of_imp
  intro x _ hq
  simp at hq ⊢
  tauto

theorem freeT_push (g : GraphState) (temp visited : List String) (node : String)
    (hn : node ∈ g.nodes) (ht : node ∉ temp) (hv : node ∉ visited) :
    freeT g (temp ++ [node]) visited < freeT g temp visited := by
  refine length_filter_lt _ _ _ ?_ node hn ?_ ?_
  · intro x _ hq
    simp at hq ⊢
    tauto
  · simp [ht, hv]
  · simp

theorem topoFold_cons_some (g : GraphState) (fuel : Nat) (c : String)
    (cs : List String) (st st1 : TopoSt)
    (h : topoVisit g fuel c st = some (some st1)) :
    topoFold g fuel (c :: cs) st = topoFold g fuel cs st1 := by
  rw [topoFold, h]

theorem topoFold_ok (g : GraphState) (wf : GWF g) (fuel : Nat)
    (IH : ∀ node temp visited result, node ∈ g.nodes →
      (∀ t ∈ temp, Relation.TransGen (isEdge g) t node) →
      freeT g temp visited < fuel →
      ∃ st', topoVisit g fuel node (temp, visited, result) = some (some st')) :
    ∀ cs temp visited result,
      (∀ c ∈ cs, c ∈ g.nodes) →
      (∀ c ∈ cs, ∀ t ∈ temp, Relation.TransGen (isEdge g) t c) →
      freeT g temp visited < fuel →
      ∃ st', topoFold g fuel cs (temp, visited, result) = some (some st') := by
  intro cs
  induction cs with
  | nil =>
      intro temp visited result _ _ _
      exact ⟨(temp, visited, result), by rw [topoFold]⟩
  | cons c cs ih =>
      intro temp visited result hmem htemp hfuel
      obtain ⟨st1, hst1⟩ := IH c temp visited result (hmem c (by simp))
        (htemp c (by simp)) hfuel
      obtain ⟨t1, v1, r1⟩ := st1
      have hpost := topoVisit_post g wf fuel c _ _ hst1 (hmem c (by simp))
      obtain ⟨p1, ⟨d, p2⟩, _, _, _⟩ := hpost
      simp only at p1 p2
      subst p1
      subst p2
      obtain ⟨st2, hst2⟩ := ih t1 (visited ++ d) r1
        (fun x hx => hmem x (by simp [hx]))
        (fun x hx => htemp x (by simp [hx]))
        (Nat.lt_of_le_of_lt (freeT_mono g t1 visited d) hfuel)
      refine ⟨st2, ?_⟩
      rw [topoFold_cons_some g fuel c cs _ _ hst1]
      exact hst2

theorem topoVisit_ok (g : GraphState) (wf : GWF g)
    (hacyc : ∀ v, ¬ Relation.TransGen (isEdge g) v v) :
    ∀ fuel node temp visited result, node ∈ g.nodes →
      (∀ t ∈ temp, Relation.TransGen (isEdge g) t node) →
      freeT g temp visited < fuel →
      ∃ st', topoVisit g fuel node (temp, visited, result) = some (some st') := by
  intro fuel
  induction fuel with
  | zero =>
      intro node temp visited result _ _ hfuel
      exact absurd hfuel (Nat.not_lt_zero _)
  | succ fuel ih =>
      intro node temp visited result hnode htemp hfuel
      have h1 : node ∉ temp := by
        intro hc
        exact hacyc node (htemp node hc)
      by_cases h2 : node ∈ visited
      · exact ⟨(temp, visited, result), by rw [topoVisit]; simp [h1, h2]⟩
      · have hcs : ∀ c ∈ children g node, c ∈ g.nodes := by
          intro c hc
          exact (wf.ends ((mem_children g node c).mp hc)).2
        have htemp' : ∀ c ∈ children g node, ∀ t ∈ temp ++ [node],
            Relation.TransGen (isEdge g) t c := by
          intro c hc t htm
          have hedge : isEdge g node c := (mem_children g node c).mp hc
          rcases List.mem_append.mp htm with htm | htm
          · exact (htemp t htm).tail hedge
          · simp only [List.mem_singleton] at htm
            subst htm
            exact Relation.TransGen.single hedge
        have hfuel' : freeT g (temp ++ [node]) visited < fuel :=
          Nat.lt_of_lt_of_le (freeT_push g temp visited node hnode h1 h2)
            (Nat.lt_succ_iff.mp hfuel)
        obtain ⟨st1, hst1⟩ := topoFold_ok g wf fuel ih (children g node)
          (temp ++ [node]) visited result hcs htemp' hfuel'
        refine ⟨(st1.1.erase node, st1.2.1 ++ [node], node :: st1.2.2), ?_⟩
        rw [topoVisit]
        simp only [if_neg h1, if_neg h2]
        rw [hst1]

/-! ### The top-level node loop of `topological()` -/

theorem topoLoop_post (g : GraphState) (wf : GWF g) (fuel : Nat) :
    ∀ ns st st', topoLoop g fuel ns st = some (some st') →
      (∀ n ∈ ns, n ∈ g.nodes) → FPOST g ns st st' := by
  intro ns
  induction ns with
  | nil =>
      intro st st' heq _
      rw [topoLoop] at heq
      injection heq with heq
      injection heq with heq
      subst heq
      exact ⟨rfl, ⟨[], by simp⟩, by simp, fun x hx hnx => absurd hx hnx, id⟩
  | cons n ns ih =>
      intro st st' heq hmem
      rw [topoLoop] at heq
      by_cases hn : n ∈ st.2.1
      · rw [if_pos hn] at heq
        have hfold := ih st st' heq (fun x hx => hmem x (by simp [hx]))
        obtain ⟨q1, ⟨d, q2⟩, q3, q4, q5⟩ := hfold
        refine ⟨q1, ⟨d, q2⟩, ?_, q4, q5⟩
        intro x hx
        rcases List.mem_cons.mp hx with hx | hx
        · subst hx
          rw [q2]
          exact List.mem_append_left _ hn
        · exact q3 x hx
      · rw [if_neg hn] at heq
        cases hv : topoVisit g fuel n st with
        | none => rw [hv] at heq; cases heq
        | some o =>
            cases o with
            | none => rw [hv] at heq; cases heq
            | some st1 =>
                rw [hv] at heq
                have hpost := topoVisit_post g wf fuel n st st1 hv (hmem n (by simp))
                have hfold := ih st1 st' heq (fun x hx => hmem x (by simp [hx]))
                obtain ⟨p1, ⟨d1, p2⟩, p3, p4, p5⟩ := hpost
                obtain ⟨q1, ⟨d2, q2⟩, q3, q4, q5⟩ := hfold
                refine ⟨q1.trans p1, ⟨d1 ++ d2, by rw [q2, p2, List.append_assoc]⟩,
                  ?_, ?_, ?_⟩
                · intro x hx
                  rcases List.mem_cons.mp hx with hx | hx
                  · subst hx
                    rw [q2]
                    exact List.mem_append_left _ p3
                  · exact q3 x hx
                · intro x hx hnx
                  by_cases hx1 : x ∈ st1.2.1
                  · exact p4 x hx1 hnx
                  · rw [← p1]
                    exact q4 x hx hx1
                · intro hInv
                  exact q5 (p5 hInv)

theorem topoLoop_ok (g : GraphState) (wf : GWF g)
    (hacyc : ∀ v, ¬ Relation.TransGen (isEdge g) v v) :
    ∀ ns visited result, (∀ n ∈ ns, n ∈ g.nodes) →
      ∃ st', topoLoop g (g.nodes.length + 1) ns ([], visited, result) =
        some (some st') := by
  intro ns
  induction ns with
  | nil =>
      intro visited result _
      exact ⟨([], visited, result), by rw [topoLoop]⟩
  | cons n ns ih =>
      intro visited result hmem
      by_cases hn : n ∈ visited
      · obtain ⟨st', hst'⟩ := ih visited result (fun x hx => hmem x (by simp [hx]))
        refine ⟨st', ?_⟩
        rw [topoLoop]
        simp only [if_pos hn]
        exact hst'
      · have hfree : freeT g [] visited < g.nodes.length + 1 :=
          Nat.lt_succ_of_le (List.length_filter_le _ _)
        obtain ⟨st1, hst1⟩ := topoVisit_ok g wf hacyc (g.nodes.length + 1) n [] visited
          result (hmem n (by simp)) (by simp) hfree
        obtain ⟨t1, v1, r1⟩ := st1
        have hpost := topoVisit_post g wf _ n _ _ hst1 (hmem n (by simp))
        obtain ⟨p1, ⟨d, p2⟩, _, _, _⟩ := hpost
        simp only at p1 p2
        subst p1
        subst p2
        obtain ⟨st2, hst2⟩ := ih (visited ++ d) r1 (fun x hx => hmem x (by simp [hx]))
        refine ⟨st2, ?_⟩
        rw [topoLoop]
        simp only [if_neg hn]
        rw [hst1]
        exact hst2

/-! ### `topological()` : characterisation of success, and both directions of
the cycle test -/

theorem topological_sound (g : GraphState) (wf : GWF g) (l : List String)
    (h : topological g = some l) :
    l.Nodup ∧ (∀ n, n ∈ l ↔ n ∈ g.nodes) ∧
      (∀ a b, isEdge g a b → a ∈ l ∧ b ∈ l ∧ l.indexOf a < l.indexOf b) := by
  unfold topological at h
  cases hloop : topoLoop g (g.nodes.length + 1) g.nodes ([], [], []) with
  | none => rw [hloop] at h; cases h
  | some o =>
      cases o with
      | none => rw [hloop] at h; cases h
      | some st' =>
          rw [hloop] at h
          injection h with h
          subst h
          have hpost := topoLoop_post g wf _ g.nodes _ st' hloop (fun n hn => hn)
          obtain ⟨_, ⟨d, hv⟩, hns, _, hinv⟩ := hpost
          have hInv0 : StInv g [] [] := ⟨rfl, List.nodup_nil, by simp, by simp⟩
          obtain ⟨i1, i2, i3, i4⟩ := hinv hInv0
          simp only at i1 i2 i3 i4 hv hns
          have hmeml : ∀ n, n ∈ st'.2.2 ↔ n ∈ st'.2.1 := by
            intro n
            rw [i1]
            exact List.mem_reverse
          refine ⟨?_, ?_, ?_⟩
          · rw [i1]
            exact List.nodup_reverse.mpr i2
          · intro n
            constructor
            · intro hn
              exact i3 n ((hmeml n).mp hn)
            · intro hn
              exact (hmeml n).mpr (hns n hn)
          · intro a b hab
            have ha : a ∈ st'.2.2 := (hmeml a).mpr (hns a (wf.ends hab).1)
            have hres := i4 a b hab ha
            exact ⟨ha, hres.1, hres.2⟩

theorem topological_of_acyclic (g : GraphState) (wf : GWF g)
    (hacyc : ∀ v, ¬ Relation.TransGen (isEdge g) v v) :
    ∃ l, topological g = some l := by
  obtain ⟨st', hst'⟩ := topoLoop_ok g wf hacyc g.nodes [] [] (fun n hn => hn)
  refine ⟨st'.2.2, ?_⟩
  unfold topological
  rw [hst']

theorem topological_of_cyclic (g : GraphState) (wf : GWF g) (v : String)
    (hv : Relation.TransGen (isEdge g) v v) : topological g = none := by
  cases h : topological g with
  | none => rfl
  | some l =>
      exfalso
      obtain ⟨_, _, hord⟩ := topological_sound g wf l h
      have hchain : ∀ a b : String, Relation.TransGen (isEdge g) a b →
          l.indexOf a < l.indexOf b := by
        intro a b htg
        induction htg with
        | single hab => exact (hord _ _ hab).2.2
        | tail _ hbc ihab => exact lt_trans ihab (hord _ _ hbc).2.2
      exact lt_irrefl _ (hchain v v hv)

/-- A rank function certifies acyclicity (used to discharge the DAG
hypothesis on concrete graphs). -/
theorem acyclic_of_rank (g : GraphState) (f : String → Nat)
    (hf : ∀ a b, isEdge g a b → f a < f b) :
    ∀ v, ¬ Relation.TransGen (isEdge g) v v := by
  have hmono : ∀ a b, Relation.TransGen (isEdge g) a b → f a < f b := by
    intro a b htg
    induction htg with
    | single hab => exact hf _ _ hab
    | tail _ hbc ihab => exact lt_trans ihab (hf _ _ hbc)
  intro v hv
  exact lt_irrefl _ (hmono v v hv)

/-- All ordered pairs appearing in the outgoing index. -/
def edgePairs (g : GraphState) : List (String × String) :=
  g.outg.flatMap (fun p => p.2.map (fun q => (p.1, q.1)))

theorem isEdge_mem_edgePairs {g : GraphState} {a b : String} (h : isEdge g a b) :
    (a, b) ∈ edgePairs g := by
  rw [isEdge, hasEdge_eq] at h
  cases ha : alookup g.outg a with
  | none => rw [ha] at h; simp at h
  | some m =>
      rw [ha] at h
      simp only [Option.some_bind] at h
      have hb : b ∈ m.map Prod.fst := (alookup_isSome _ _).mp h
      obtain ⟨q, hq, hqe⟩ := List.mem_map.mp hb
      refine List.mem_flatMap.mpr ⟨(a, m), mem_of_alookup ha, ?_⟩
      exact List.mem_map.mpr ⟨q, hq, by rw [hqe]⟩

/-! ## Verification of `dfs` -/

/-- Postcondition of a successful `dfsVisit node` call. -/
def DPOST (g : GraphState) (node : String) (visited : List String)
    (log : List (String × Nat)) (res : List String × List (String × Nat)) : Prop :=
  (∃ d, res.1 = visited ++ d) ∧
  node ∈ res.1 ∧
  (∀ x ∈ res.1, x ∉ visited → Relation.ReflTransGen (isEdge g) node x) ∧
  (∀ x ∈ res.1, x ∉ visited → ∀ y, isEdge g x y → y ∈ res.1) ∧
  (log.map Prod.fst = visited → res.2.map Prod.fst = res.1) ∧
  (visited.Nodup → res.1.Nodup)

/-- Postcondition of a successful `dfsFold cs` call. -/
def DFPOST (g : GraphState) (cs : List String) (visited : List String)
    (log : List (String × Nat)) (res : List String × List (String × Nat)) : Prop :=
  (∃ d, res.1 = visited ++ d) ∧
  (∀ c ∈ cs, c ∈ res.1) ∧
  (∀ x ∈ res.1, x ∉ visited → ∃ c ∈ cs, Relation.ReflTransGen (isEdge g) c x) ∧
  (∀ x ∈ res.1, x ∉ visited → ∀ y, isEdge g x y → y ∈ res.1) ∧
  (log.map Prod.fst = visited → res.2.map Prod.fst = res.1) ∧
  (visited.Nodup → res.1.Nodup)

theorem dfsFold_cons_some (g : GraphState) (fuel : Nat) (c : String) (cs : List String)
    (depth : Nat) (visited : List String) (log : List (String × Nat))
    (v1 : List String) (l1 : List (String × Nat))
    (h : dfsVisit g fuel c depth visited log = some (v1, l1)) :
    dfsFold g fuel (c :: cs) depth visited log = dfsFold g fuel cs depth v1 l1 := by
  rw [dfsFold, h]

theorem dfsFold_post (g : GraphState) (fuel : Nat)
    (IH : ∀ node depth visited log res,
      dfsVisit g fuel node depth visited log = some res →
      DPOST g node visited log res) :
    ∀ cs depth visited log res,
      dfsFold g fuel cs depth visited log = some res →
      DFPOST g cs visited log res := by
  intro cs
  induction cs with
  | nil =>
      intro depth visited log res heq
      rw [dfsFold] at heq
      injection heq with heq
      subst heq
      refine ⟨⟨[], by simp⟩, by simp, ?_, ?_, fun h => h, fun h => h⟩
      · intro x hx hnx
        exact absurd hx hnx
      · intro x hx hnx
        exact absurd hx hnx
  | cons c cs ih =>
      intro depth visited log res heq
      rw [dfsFold] at heq
      cases hv : dfsVisit g fuel c depth visited log with
      | none => rw [hv] at heq; cases heq
      | some r1 =>
          rw [hv] at heq
          obtain ⟨v1, l1⟩ := r1
          have hpost := IH c depth visited log (v1, l1) hv
          have hfold := ih depth v1 l1 res heq
          obtain ⟨⟨d1, p1⟩, p2, p3, p4, p5, p6⟩ := hpost
          obtain ⟨⟨d2, q1⟩, q2, q3, q4, q5, q6⟩ := hfold
          simp only at p1 p2 p3 p4 p5 p6
          have hsub : ∀ x ∈ v1, x ∈ res.1 := by
            intro x hx
            rw [q1]
            exact List.mem_append_left _ hx
          refine ⟨⟨d1 ++ d2, by rw [q1, p1, List.append_assoc]⟩, ?_, ?_, ?_, ?_, ?_⟩
          · intro x hx
            rcases List.mem_cons.mp hx with hx | hx
            · subst hx
              exact hsub _ p2
            · exact q2 x hx
          · intro x hx hnx
            by_cases hx1 : x ∈ v1
            · exact ⟨c, by simp, p3 x hx1 hnx⟩
            · obtain ⟨c', hc', hr⟩ := q3 x hx hx1
              exact ⟨c', by simp [hc'], hr⟩
          · intro x hx hnx y hy
            by_cases hx1 : x ∈ v1
            · exact hsub _ (p4 x hx1 hnx y hy)
            · exact q4 x hx hx1 y hy
          · intro hlog
            exact q5 (p5 hlog)
          · intro hnd
            exact q6 (p6 hnd)

theorem dfsVisit_post (g : GraphState) :
    ∀ fuel node depth visited log res,
      dfsVisit g fuel node depth visited log = some res →
      DPOST g node visited log res := by
  intro fuel
  induction fuel with
  | zero =>
      intro node depth visited log res heq
      rw [dfsVisit] at heq
      cases heq
  | succ fuel ih =>
      intro node depth visited log res heq
      rw [dfsVisit] at heq
      by_cases h1 : node ∈ visited
      · rw [if_pos h1] at heq
        injection heq with heq
        subst heq
        refine ⟨⟨[], by simp⟩, h1, ?_, ?_, fun h => h, fun h => h⟩
        · intro x hx hnx
          exact absurd hx hnx
        · intro x hx hnx
          exact absurd hx hnx
      · rw [if_neg h1] at heq
        have hfold := dfsFold_post g fuel ih (children g node) (depth + 1)
          (visited ++ [node]) (log ++ [(node, depth)]) res heq
        obtain ⟨⟨d, q1⟩, q2, q3, q4, q5, q6⟩ := hfold
        have hsubv : ∀ x ∈ visited ++ [node], x ∈ res.1 := by
          intro x hx
          rw [q1]
          exact List.mem_append_left _ hx
        refine ⟨⟨[node] ++ d, by rw [q1, List.append_assoc]⟩, ?_, ?_, ?_, ?_, ?_⟩
        · exact hsubv node (by simp)
        · intro x hx hnx
          by_cases hx0 : x ∈ visited ++ [node]
          · have : x = node := by
              rcases List.mem_append.mp hx0 with hc | hc
              · exact absurd hc hnx
              · simpa using hc
            subst this
            exact Relation.ReflTransGen.refl
          · obtain ⟨c, hc, hr⟩ := q3 x hx hx0
            exact Relation.ReflTransGen.head ((mem_children g node c).mp hc) hr
        · intro x hx hnx y hy
          by_cases hx0 : x ∈ visited ++ [node]
          · have hxn : x = node := by
              rcases List.mem_append.mp hx0 with hc | hc
              · exact absurd hc hnx
              · simpa using hc
            subst hxn
            exact q2 y ((mem_children g x y).mpr hy)
          · exact q4 x hx hx0 y hy
        · intro hlog
          apply q5
          rw [List.map_append, hlog]
          rfl
        · intro hnd
          apply q6
          simp [List.nodup_append, hnd, h1]

/-! ### Fuel sufficiency for `dfs` -/

def freeD (g : GraphState) (visited : List String) : Nat :=
  (g.nodes.filter (fun n => !visited.contains n)).length

theorem freeD_mono (g : GraphState) (visited d : List String) :
    freeD g (visited ++ d) ≤ freeD g visited := by
  apply length_filter_le_of_imp
  intro x _ hq
  simp at hq ⊢
  tauto

theorem freeD_push (g : GraphState) (visited : List String) (node : String)
    (hn : node ∈ g.nodes) (hv : node ∉ visited) :
    freeD g (visited ++ [node]) < freeD g visited := by
  refine length_filter_lt _ _ _ ?_ node hn ?_ ?_
  · intro x _ hq
    simp at hq ⊢
    tauto
  · simp [hv]
  · simp

theorem children_eq_nil_of_not_node (g : GraphState) (wf : GWF g) (n : String)
    (hn : n ∉ g.nodes) : children g n = [] := by
  unfold children
  cases h : alookup g.outg n with
  | none => rfl
  | some m => exact absurd (wf.outg_keys_nodes (n, m) (mem_of_alookup h)) hn

theorem dfsFold_ok (g : GraphState) (fuel : Nat)
    (IH : ∀ node depth visited log, freeD g visited < fuel →
      ∃ res, dfsVisit g fuel node depth visited log = some res) :
    ∀ cs depth visited log, freeD g visited < fuel →
      ∃ res, dfsFold g fuel cs depth visited log = some res := by
  intro cs
  induction cs with
  | nil =>
      intro depth visited log _
      exact ⟨(visited, log), by rw [dfsFold]⟩
  | cons c cs ih =>
      intro depth visited log hfuel
      obtain ⟨r1, hr1⟩ := IH c depth visited log hfuel
      obtain ⟨v1, l1⟩ := r1
      have hpost := dfsVisit_post g fuel c depth visited log (v1, l1) hr1
      obtain ⟨⟨d, p1⟩, _, _, _, _, _⟩ := hpost
      simp only at p1
      subst p1
      obtain ⟨res, hres⟩ := ih depth (visited ++ d) l1
        (Nat.lt_of_le_of_lt (freeD_mono g visited d) hfuel)
      exact ⟨res, by rw [dfsFold_cons_some g fuel c cs depth visited log _ _ hr1]; exact hres⟩

theorem dfsVisit_ok (g : GraphState) (wf : GWF g) :
    ∀ fuel node depth visited log, freeD g visited < fuel →
      ∃ res, dfsVisit g fuel node depth visited log = some res := by
  intro fuel
  induction fuel with
  | zero =>
      intro node depth visited log hfuel
      exact absurd hfuel (Nat.not_lt_zero _)
  | succ fuel ih =>
      intro node depth visited log hfuel
      by_cases h1 : node ∈ visited
      · exact ⟨(visited, log), by rw [dfsVisit]; simp [h1]⟩
      · by_cases hn : node ∈ g.nodes
        · have hfuel' : freeD g (visited ++ [node]) < fuel :=
            Nat.lt_of_lt_of_le (freeD_push g visited node hn h1)
              (Nat.lt_succ_iff.mp hfuel)
          obtain ⟨res, hres⟩ := dfsFold_ok g fuel ih (children g node) (depth + 1)
            (visited ++ [node]) (log ++ [(node, depth)]) hfuel'
          refine ⟨res, ?_⟩
          rw [dfsVisit]
          simp only [if_neg h1]
          exact hres
        · refine ⟨(visited ++ [node], log ++ [(node, depth)]), ?_⟩
          rw [dfsVisit]
          simp only [if_neg h1]
          rw [children_eq_nil_of_not_node g wf node hn, dfsFold]

/-- Full characterisation of `dfs`: it always terminates and logs exactly the
reachable nodes, once each. -/
theorem dfs_spec (g : GraphState) (wf : GWF g) (start : String) :
    ∃ log, dfs g start = some log ∧ (log.map Prod.fst).Nodup ∧
      (∀ u, u ∈ log.map Prod.fst ↔ Relation.ReflTransGen (isEdge g) start u) := by
  have hfree : freeD g [] < g.nodes.length + 1 :=
    Nat.lt_succ_of_le (List.length_filter_le _ _)
  obtain ⟨res, hres⟩ := dfsVisit_ok g wf (g.nodes.length + 1) start 0 [] [] hfree
  obtain ⟨v', l'⟩ := res
  have hpost := dfsVisit_post g (g.nodes.length + 1) start 0 [] [] (v', l') hres
  obtain ⟨⟨d, h1⟩, h2, h3, h4, h5, h6⟩ := hpost
  simp only at h1 h2 h3 h4 h5 h6
  have hlog : l'.map Prod.fst = v' := h5 rfl
  have hnd : v'.Nodup := h6 List.nodup_nil
  refine ⟨l', by rw [dfs, hres]; rfl, by rw [hlog]; exact hnd, ?_⟩
  intro u
  rw [hlog]
  constructor
  · intro hu
    exact h3 u hu (by simp)
  · intro hreach
    induction hreach with
    | refl => exact h2
    | tail _ hbc ihr => exact h4 _ ihr (by simp) _ hbc

/-! ## The `edges()` listing (used to state per-pair uniqueness) -/

def edgesList (g : GraphState) : List (String × String × Nat) :=
  g.outg.flatMap (fun p => p.2.map (fun q => (p.1, q.1, q.2)))

theorem edgesList_pairs_nodup (g : GraphState) (wf : GWF g) :
    ((edgesList g).map (fun t => (t.1, t.2.1))).Nodup := by
  unfold edgesList
  rw [List.map_flatMap]
  rw [List.nodup_flatMap]
  constructor
  · intro p hp
    rw [List.map_map]
    have : ((fun t : String × String × Nat => (t.1, t.2.1)) ∘
        (fun q : String × Nat => (p.1, q.1, q.2))) =
        (fun k : String => (p.1, k)) ∘ Prod.fst := rfl
    rw [this, ← List.map_map]
    apply List.Nodup.map
    · intro x y hxy
      exact congrArg Prod.snd hxy
    · exact wf.outg_inner_nodup p hp
  · have hp : g.outg.Pairwise (fun a b => a.1 ≠ b.1) := by
      have h := wf.outg_keys_nodup
      rw [List.Nodup, List.pairwise_map] at h
      exact h
    apply hp.imp
    intro p q hne
    intro t htp htq
    simp only [List.map_map, List.mem_map, Function.comp] at htp htq
    obtain ⟨x, _, hx⟩ := htp
    obtain ⟨y, _, hy⟩ := htq
    rw [← hx] at hy
    exact hne (congrArg Prod.fst hy).symm

/-! ## Claim theorems for the graph engine -/

/-- C2: for every (constructible) graph whose directed edges form no cycle,
`topological()` returns a list containing every node of the graph exactly once
(duplicate-free, membership coincides with the node set), such that for every
edge the source node appears strictly before the target node in the list. -/
theorem topological_correct_on_dags (g : GraphState) (hg : GReachable g)
    (hacyc : ∀ v, ¬ Relation.TransGen (isEdge g) v v) :
    ∃ l, topological g = some l ∧ l.Nodup ∧ (∀ n, n ∈ l ↔ n ∈ g.nodes) ∧
      (∀ a b, isEdge g a b → a ∈ l ∧ b ∈ l ∧ l.indexOf a < l.indexOf b) := by
  have wf := hg.wf
  obtain ⟨l, hl⟩ := topological_of_acyclic g wf hacyc
  obtain ⟨h1, h2, h3⟩ := topological_sound g wf l hl
  exact ⟨l, hl, h1, h2, h3⟩

def gDag : GraphState :=
  runGOps [.addEdge "A" "B" 0, .addEdge "B" "C" 0, .addEdge "A" "C" 0]

def rankDag (s : String) : Nat :=
  if s = "A" then 0 else if s = "B" then 1 else 2

theorem gDag_acyclic : ∀ v, ¬ Relation.TransGen (isEdge gDag) v v := by
  apply acyclic_of_rank gDag rankDag
  intro a b h
  have hm := isEdge_mem_edgePairs h
  have he : edgePairs gDag = [("A", "B"), ("A", "C"), ("B", "C")] := rfl
  rw [he] at hm
  simp only [List.mem_cons, List.not_mem_nil, or_false, Prod.mk.injEq] at hm
  rcases hm with ⟨ha, hb⟩ | ⟨ha, hb⟩ | ⟨ha, hb⟩ <;> subst ha <;> subst hb <;> decide

theorem topological_correct_on_dags_witness :
    GReachable gDag ∧ (∀ v, ¬ Relation.TransGen (isEdge gDag) v v) ∧
      (∃ l, topological gDag = some l ∧ l.Nodup ∧ (∀ n, n ∈ l ↔ n ∈ gDag.nodes) ∧
        (∀ a b, isEdge gDag a b → a ∈ l ∧ b ∈ l ∧ l.indexOf a < l.indexOf b)) :=
  ⟨⟨_, rfl⟩, gDag_acyclic,
    topological_correct_on_dags gDag ⟨_, rfl⟩ gDag_acyclic⟩

/-- C3: a (constructible) graph that contains a directed cycle makes
`topological()` fail with the cycle error, while `dfs(start, visit)` on the
same graph still terminates and calls `visit` exactly once per node reachable
from `start` — revisits are skipped silently, no error is raised. -/
theorem cyclic_graph_topological_fails_dfs_completes (g : GraphState)
    (hg : GReachable g) (hcyc : ∃ v, Relation.TransGen (isEdge g) v v) :
    topological g = none ∧
      ∀ start, ∃ log, dfs g start = some log ∧ (log.map Prod.fst).Nodup ∧
        (∀ u, u ∈ log.map Prod.fst ↔ Relation.ReflTransGen (isEdge g) start u) := by
  have wf := hg.wf
  obtain ⟨v, hv⟩ := hcyc
  exact ⟨topological_of_cyclic g wf v hv, fun start => dfs_spec g wf start⟩

def gCyc : GraphState := runGOps [.addEdge "A" "B" 0, .addEdge "B" "A" 0]

theorem gCyc_cyclic : ∃ v, Relation.TransGen (isEdge gCyc) v v := by
  have h1 : isEdge gCyc "A" "B" := by decide
  have h2 : isEdge gCyc "B" "A" := by decide
  exact ⟨"A", Relation.TransGen.head h1 (Relation.TransGen.single h2)⟩

theorem cyclic_graph_topological_fails_dfs_completes_witness :
    GReachable gCyc ∧ (∃ v, Relation.TransGen (isEdge gCyc) v v) ∧
      (topological gCyc = none ∧
        ∀ start, ∃ log, dfs gCyc start = some log ∧ (log.map Prod.fst).Nodup ∧
          (∀ u, u ∈ log.map Prod.fst ↔ Relation.ReflTransGen (isEdge gCyc) start u)) :=
  ⟨⟨_, rfl⟩, gCyc_cyclic,
    cyclic_graph_topological_fails_dfs_completes gCyc ⟨_, rfl⟩ gCyc_cyclic⟩

/-- C8: in every reachable graph state, both endpoints of every edge (in the
outgoing and in the incoming index) are members of the node set; `addEdge`
implicitly adds both endpoints as nodes and overwrites the stored edge for the
ordered pair, so the `edges()` listing never carries two entries for the same
ordered pair; `removeNode n` purges every edge with `n` as source or target
from both indexes. -/
theorem graph_edge_endpoint_invariant (g : GraphState) (hg : GReachable g) :
    (∀ a b, (isEdge g a b ∨ incHas g b a = true) → a ∈ g.nodes ∧ b ∈ g.nodes) ∧
    (∀ a b d, hasNode (addEdge g a b d) a = true ∧ hasNode (addEdge g a b d) b = true ∧
      getEdgeData (addEdge g a b d) a b = some d) ∧
    ((edgesList g).map (fun t => (t.1, t.2.1))).Nodup ∧
    (∀ n x, hasEdge (removeNode g n) n x = false ∧ hasEdge (removeNode g n) x n = false ∧
      incHas (removeNode g n) n x = false ∧ incHas (removeNode g n) x n = false) := by
  have wf := hg.wf
  refine ⟨?_, ?_, edgesList_pairs_nodup g wf, ?_⟩
  · intro a b h
    rcases h with h | h
    · exact wf.ends h
    · refine wf.ends ?_
      rw [isEdge, wf.mirror]
      exact h
  · intro a b d
    refine ⟨?_, ?_, getEdgeData_addEdge_self g a b d⟩
    · show ((addEdge g a b d).nodes.contains a) = true
      rw [addEdge_nodes]
      simp only [List.elem_iff]
      exact (mem_sadd _ _ _).mpr (Or.inl ((mem_sadd _ _ _).mpr (Or.inr rfl)))
    · show ((addEdge g a b d).nodes.contains b) = true
      rw [addEdge_nodes]
      simp only [List.elem_iff]
      exact (mem_sadd _ _ _).mpr (Or.inr rfl)
  · intro n x
    refine ⟨?_, ?_, ?_, ?_⟩
    · rw [← Bool.not_eq_true]
      intro hc
      have := (isEdge_removeNode g n n x).mp hc
      exact this.2.1 rfl
    · rw [← Bool.not_eq_true]
      intro hc
      have := (isEdge_removeNode g n x n).mp hc
      exact this.2.2 rfl
    · rw [← Bool.not_eq_true]
      intro hc
      have := (incHas_removeNode g wf n x n).mp hc
      exact this.2.2 rfl
    · rw [← Bool.not_eq_true]
      intro hc
      have := (incHas_removeNode g wf n n x).mp hc
      exact this.2.1 rfl

def gC8 : GraphState := runGOps [.addEdge "A" "B" 5, .addNode "C", .addEdge "B" "C" 7]

theorem graph_edge_endpoint_invariant_witness :
    GReachable gC8 ∧
      ((∀ a b, (isEdge gC8 a b ∨ incHas gC8 b a = true) → a ∈ gC8.nodes ∧ b ∈ gC8.nodes) ∧
      (∀ a b d, hasNode (addEdge gC8 a b d) a = true ∧
        hasNode (addEdge gC8 a b d) b = true ∧
        getEdgeData (addEdge gC8 a b d) a b = some d) ∧
      ((edgesList gC8).map (fun t => (t.1, t.2.1))).Nodup ∧
      (∀ n x, hasEdge (removeNode gC8 n) n x = false ∧
        hasEdge (removeNode gC8 n) x n = false ∧
        incHas (removeNode gC8 n) n x = false ∧
        incHas (removeNode gC8 n) x n = false)) :=
  ⟨⟨_, rfl⟩, graph_edge_endpoint_invariant gC8 ⟨_, rfl⟩⟩

/-! ## The World (`world.ts`)

Component and resource values are `JVal`; typed handles carry the storage key
and the default-value factory (modelled as a value — the factory is a pure
zero-argument closure).  `getComp`/`setComp`/`hasComp` are `world.get` /
`world.set` / `world.has`; `existsEntity` is `world.exists` (`exists` is
reserved in Lean).

`mkId` models `crypto.randomUUID()`: an injective supply of fresh identifier
strings, drawn from a process-global counter (the UUID guarantee that no
identifier is ever produced twice). -/

structure CompType : Type where
  name : String
  dflt : JVal

structure ResType : Type where
  name : String
  dflt : JVal

def mkId (n : Nat) : String := ⟨List.replicate n 'e'⟩

theorem mkId_injective : Function.Injective mkId := by
  intro a b h
  have : List.replicate a 'e' = List.replicate b 'e' := congrArg String.data h
  have := congrArg List.length this
  simpa using this

structure WorldState : Type where
  nextId : Nat
  entities : List String
  components : List (String × List (String × JVal))
  resources : List (String × JVal)

def createWorld (g0 : Nat) : WorldState := ⟨g0, [], [], []⟩

def spawn (w : WorldState) : WorldState × String :=
  let id := mkId w.nextId
  ({ w with nextId := w.nextId + 1, entities := sadd w.entities id }, id)

def despawn (w : WorldState) (e : String) : WorldState :=
  { w with entities := w.entities.erase e,
           components := w.components.map (fun p => (p.1, adel p.2 e)) }

def existsEntity (w : WorldState) (e : String) : Bool :=
  w.entities.contains e

/-- JS `??` as used in `attach`: `none` models an omitted (`undefined`)
argument; an explicit `null` also takes the default. -/
def nullish (v : Option JVal) (d : JVal) : JVal :=
  match v with
  | none => d
  | some JVal.null => d
  | some x => x

def attach (w : WorldState) (e : String) (c : CompType) (v : Option JVal) :
    WorldState :=
  if e ∈ w.entities then
    let store := (alookup w.components c.name).getD []
    { w with components := aset w.components c.name (aset store e (nullish v c.dflt)) }
  else w

def detach (w : WorldState) (e : String) (c : CompType) : WorldState :=
  match alookup w.components c.name with
  | some store => { w with components := aset w.components c.name (adel store e) }
  | none => w

def getComp (w : WorldState) (e : String) (c : CompType) : Option JVal :=
  (alookup w.components c.name).bind (fun s => alookup s e)

def hasComp (w : WorldState) (e : String) (c : CompType) : Bool :=
  match alookup w.components c.name with
  | some s => (alookup s e).isSome
  | none => false

def setComp (w : WorldState) (e : String) (c : CompType) (v : JVal) : WorldState :=
  match alookup w.components c.name with
  | some s =>
      if (alookup s e).isSome then
        { w with components := aset w.components c.name (aset s e v) }
      else w
  | none => w

def query (w : WorldState) (cs : List CompType) : List String :=
  w.entities.filter (fun e => cs.all (fun c => hasComp w e c))

def getResource (w : WorldState) (r : ResType) : WorldState × JVal :=
  match alookup w.resources r.name with
  | some v => (w, v)
  | none => ({ w with resources := aset w.resources r.name r.dflt }, r.dflt)

def setResource (w : WorldState) (r : ResType) (v : JVal) : WorldState :=
  { w with resources := aset w.resources r.name v }

/-! ### World construction and the reachable-state invariant -/

inductive WOp : Type where
  | spawn
  | despawn (e : String)
  | attach (e : String) (c : CompType) (v : Option JVal)
  | detach (e : String) (c : CompType)
  | setComp (e : String) (c : CompType) (v : JVal)
  | getResource (r : ResType)
  | setResource (r : ResType) (v : JVal)

def applyWOp (w : WorldState) : WOp → WorldState
  | .spawn => (spawn w).1
  | .despawn e => despawn w e
  | .attach e c v => attach w e c v
  | .detach e c => detach w e c
  | .setComp e c v => setComp w e c v
  | .getResource r => (getResource w r).1
  | .setResource r v => setResource w r v

def runWOps (g0 : Nat) (ops : List WOp) : WorldState :=
  ops.foldl applyWOp (createWorld g0)

/-- A world producible by `createWorld` followed by any operations (the id
generator is started at `g0`, modelling where the process-global UUID supply
stands when the world is created). -/
def WReachable (g0 : Nat) (w : WorldState) : Prop :=
  ∃ ops : List WOp, runWOps g0 ops = w

structure WWF (w : WorldState) : Prop where
  entities_nodup : w.entities.Nodup
  comp_keys_nodup : (w.components.map Prod.fst).Nodup
  store_keys_nodup : ∀ p ∈ w.components, (p.2.map Prod.fst).Nodup
  store_keys_alive : ∀ p ∈ w.components, ∀ q ∈ p.2, q.1 ∈ w.entities
  entities_bound : ∀ e ∈ w.entities, ∃ k, k < w.nextId ∧ e = mkId k
  res_keys_nodup : (w.resources.map Prod.fst).Nodup

theorem keys_aset_nodup {α : Type} (l : List (String × α)) (k : String) (v : α)
    (h : (l.map Prod.fst).Nodup) : ((aset l k v).map Prod.fst).Nodup := by
  by_cases hk : k ∈ l.map Prod.fst
  · rw [keys_aset_of_mem _ _ _ hk]
    exact h
  · rw [keys_aset_of_not_mem _ _ _ hk]
    simp [List.nodup_append, h, hk]

theorem WWF_createWorld (g0 : Nat) : WWF (createWorld g0) := by
  constructor <;> simp [createWorld]

theorem WWF_spawn {w : WorldState} (hw : WWF w) : WWF (spawn w).1 := by
  constructor
  · exact sadd_nodup _ _ hw.entities_nodup
  · exact hw.comp_keys_nodup
  · exact hw.store_keys_nodup
  · intro p hp q hq
    exact (mem_sadd _ _ _).mpr (Or.inl (hw.store_keys_alive p hp q hq))
  · intro e he
    rcases (mem_sadd _ _ _).mp he with he | he
    · obtain ⟨k, hk, he⟩ := hw.entities_bound e he
      exact ⟨k, Nat.lt_succ_of_lt hk, he⟩
    · exact ⟨w.nextId, Nat.lt_succ_self _, he⟩
  · exact hw.res_keys_nodup

theorem WWF_despawn {w : WorldState} (hw : WWF w) (e : String) : WWF (despawn w e) := by
  constructor
  · exact hw.entities_nodup.erase e
  · show ((w.components.map (fun p => (p.1, adel p.2 e))).map Prod.fst).Nodup
    rw [keys_mapval w.components (fun m => adel m e)]
    exact hw.comp_keys_nodup
  · intro p hp
    obtain ⟨p0, hp0, hpe⟩ := List.mem_map.mp hp
    subst hpe
    exact keys_adel_nodup _ _ (hw.store_keys_nodup p0 hp0)
  · intro p hp q hq
    obtain ⟨p0, hp0, hpe⟩ := List.mem_map.mp hp
    subst hpe
    have h1 := mem_adel q hq
    exact List.mem_erase_of_ne h1.2 |>.mpr (hw.store_keys_alive p0 hp0 q h1.1)
  · intro x hx
    exact hw.entities_bound x (List.mem_of_mem_erase hx)
  · exact hw.res_keys_nodup

theorem WWF_attach {w : WorldState} (hw : WWF w) (e : String) (c : CompType)
    (v : Option JVal) : WWF (attach w e c v) := by
  by_cases he : e ∈ w.entities
  · have hcomp : (attach w e c v).components =
        aset w.components c.name
          (aset ((alookup w.components c.name).getD []) e (nullish v c.dflt)) := by
      simp [attach, he]
    have hrest : (attach w e c v).entities = w.entities ∧
        (attach w e c v).nextId = w.nextId ∧
        (attach w e c v).resources = w.resources := by
      simp [attach, he]
    constructor
    · rw [hrest.1]; exact hw.entities_nodup
    · rw [hcomp]; exact keys_aset_nodup _ _ _ hw.comp_keys_nodup
    · rw [hcomp]
      intro p hp
      rcases mem_aset p hp with hp | hp
      · exact hw.store_keys_nodup p hp
      · subst hp
        show (((aset ((alookup w.components c.name).getD []) e (nullish v c.dflt))).map
          Prod.fst).Nodup
        cases h : alookup w.components c.name with
        | none => simp [aset]
        | some s =>
            simp only [Option.getD_some]
            exact keys_aset_nodup _ _ _
              (hw.store_keys_nodup (c.name, s) (mem_of_alookup h))
    · rw [hcomp, hrest.1]
      intro p hp q hq
      rcases mem_aset p hp with hp | hp
      · exact hw.store_keys_alive p hp q hq
      · subst hp
        rcases mem_aset q hq with hq | hq
        · cases h : alookup w.components c.name with
          | none => rw [h] at hq; simp at hq
          | some s =>
              rw [h] at hq
              simp only [Option.getD_some] at hq
              exact hw.store_keys_alive (c.name, s) (mem_of_alookup h) q hq
        · subst hq
          exact he
    · rw [hrest.1, hrest.2.1]
      exact hw.entities_bound
    · rw [hrest.2.2]
      exact hw.res_keys_nodup
  · have : attach w e c v = w := by simp [attach, he]
    rw [this]
    exact hw

theorem WWF_detach {w : WorldState} (hw : WWF w) (e : String) (c : CompType) :
    WWF (detach w e c) := by
  unfold detach
  cases h : alookup w.components c.name with
  | none => exact hw
  | some s =>
      constructor
      · exact hw.entities_nodup
      · exact keys_aset_nodup _ _ _ hw.comp_keys_nodup
      · intro p hp
        rcases mem_aset p hp with hp | hp
        · exact hw.store_keys_nodup p hp
        · subst hp
          exact keys_adel_nodup _ _ (hw.store_keys_nodup (c.name, s) (mem_of_alookup h))
      · intro p hp q hq
        rcases mem_aset p hp with hp | hp
        · exact hw.store_keys_alive p hp q hq
        · subst hp
          have h1 := mem_adel q hq
          exact hw.store_keys_alive (c.name, s) (mem_of_alookup h) q h1.1
      · exact hw.entities_bound
      · exact hw.res_keys_nodup

theorem WWF_setComp {w : WorldState} (hw : WWF w) (e : String) (c : CompType)
    (v : JVal) : WWF (setComp w e c v) := by
  unfold setComp
  cases h : alookup w.components c.name with
  | none => exact hw
  | some s =>
      by_cases hsome : (alookup s e).isSome = true
      · simp only [hsome, if_true]
        have hes : e ∈ w.entities := by
          rw [Option.isSome_iff_exists] at hsome
          obtain ⟨x, hx⟩ := hsome
          exact hw.store_keys_alive (c.name, s) (mem_of_alookup h) (e, x)
            (mem_of_alookup hx)
        constructor
        · exact hw.entities_nodup
        · exact keys_aset_nodup _ _ _ hw.comp_keys_nodup
        · intro p hp
          rcases mem_aset p hp with hp | hp
          · exact hw.store_keys_nodup p hp
          · subst hp
            exact keys_aset_nodup _ _ _
              (hw.store_keys_nodup (c.name, s) (mem_of_alookup h))
        · intro p hp q hq
          rcases mem_aset p hp with hp | hp
          · exact hw.store_keys_alive p hp q hq
          · subst hp
            rcases mem_aset q hq with hq | hq
            · exact hw.store_keys_alive (c.name, s) (mem_of_alookup h) q hq
            · subst hq
              exact hes
        · exact hw.entities_bound
        · exact hw.res_keys_nodup
      · simp only [hsome]
        simp only [Bool.not_eq_true] at hsome
        simp [hsome]
        exact hw

theorem WWF_getResource {w : WorldState} (hw : WWF w) (r : ResType) :
    WWF (getResource w r).1 := by
  unfold getResource
  cases h : alookup w.resources r.name with
  | some v => exact hw
  | none =>
      constructor
      · exact hw.entities_nodup
      · exact hw.comp_keys_nodup
      · exact hw.store_keys_nodup
      · exact hw.store_keys_alive
      · exact hw.entities_bound
      · exact keys_aset_nodup _ _ _ hw.res_keys_nodup

theorem WWF_setResource {w : WorldState} (hw : WWF w) (r : ResType) (v : JVal) :
    WWF (setResource w r v) := by
  constructor
  · exact hw.entities_nodup
  · exact hw.comp_keys_nodup
  · exact hw.store_keys_nodup
  · exact hw.store_keys_alive
  · exact hw.entities_bound
  · exact keys_aset_nodup _ _ _ hw.res_keys_nodup

theorem WWF_applyWOp {w : WorldState} (hw : WWF w) (op : WOp) : WWF (applyWOp w op) := by
  cases op with
  | spawn => exact WWF_spawn hw
  | despawn e => exact WWF_despawn hw e
  | attach e c v => exact WWF_attach hw e c v
  | detach e c => exact WWF_detach hw e c
  | setComp e c v => exact WWF_setComp hw e c v
  | getResource r => exact WWF_getResource hw r
  | setResource r v => exact WWF_setResource hw r v

theorem WReachable.wwf {g0 : Nat} {w : WorldState} (h : WReachable g0 w) : WWF w := by
  obtain ⟨ops, hops⟩ := h
  subst hops
  unfold runWOps
  induction ops using List.reverseRecOn with
  | nil => exact WWF_createWorld g0
  | append_singleton ops op ih =>
      rw [List.foldl_append, List.foldl_cons, List.foldl_nil]
      exact WWF_applyWOp ih op

theorem adel_adel {α : Type} (l : List (String × α)) (k : String) :
    adel (adel l k) k = adel l k := by
  induction l with
  | nil => rfl
  | cons p t ih =>
      by_cases hp : p.1 = k
      · simp [adel, hp, ih]
      · simp [adel, hp, ih]

theorem adel_of_not_mem {α : Type} (l : List (String × α)) (k : String)
    (h : k ∉ l.map Prod.fst) : adel l k = l := by
  induction l with
  | nil => rfl
  | cons p t ih =>
      simp only [List.map_cons, List.mem_cons] at h
      push_neg at h
      simp [adel, Ne.symm h.1, ih h.2]

/-! ## Claim theorems for the World -/

/-- C4: for every constructible world and every finite list of component
types, `query` returns exactly the currently-alive entities that carry all the
requested components — no duplicates, no dead entities — and `query()` with
zero component types returns all live entities. -/
theorem query_exact (g0 : Nat) (w : WorldState) (hw : WReachable g0 w) :
    (∀ cs : List CompType, (query w cs).Nodup ∧
      ∀ e, e ∈ query w cs ↔ existsEntity w e = true ∧ ∀ c ∈ cs, hasComp w e c = true) ∧
    query w [] = w.entities := by
  have wwf := hw.wwf
  constructor
  · intro cs
    constructor
    · exact wwf.entities_nodup.filter _
    · intro e
      rw [query, List.mem_filter]
      simp [existsEntity, List.elem_iff]
  · rw [query]
    simp

def wC4 : WorldState :=
  runWOps 0 [.spawn, .spawn, .attach (mkId 0) ⟨"Position", JVal.null⟩ (some (JVal.num 3))]

theorem query_exact_witness :
    WReachable 0 wC4 ∧
      ((∀ cs : List CompType, (query wC4 cs).Nodup ∧
        ∀ e, e ∈ query wC4 cs ↔ existsEntity wC4 e = true ∧
          ∀ c ∈ cs, hasComp wC4 e c = true) ∧
      query wC4 [] = wC4.entities) :=
  ⟨⟨_, rfl⟩, query_exact 0 wC4 ⟨_, rfl⟩⟩

/-- C7: `despawn` kills the entity and removes its entry from every component
store (no dangling component entries), is idempotent, and is a no-op on an
identifier that is not currently alive. -/
theorem despawn_cascades (g0 : Nat) (w : WorldState) (hw : WReachable g0 w)
    (e : String) :
    existsEntity (despawn w e) e = false ∧
    (∀ c : CompType, hasComp (despawn w e) e c = false) ∧
    despawn (despawn w e) e = despawn w e ∧
    (existsEntity w e = false → despawn w e = w) := by
  have wwf := hw.wwf
  refine ⟨?_, ?_, ?_, ?_⟩
  · show ((w.entities.erase e).contains e) = false
    rw [← Bool.not_eq_true]
    simp only [List.elem_iff]
    exact wwf.entities_nodup.not_mem_erase
  · intro c
    unfold hasComp
    have hcmp : (despawn w e).components =
        w.components.map (fun p => (p.1, adel p.2 e)) := rfl
    rw [hcmp, alookup_mapval w.components (fun m => adel m e) c.name]
    cases h : alookup w.components c.name with
    | none => rfl
    | some s => simp [alookup_adel_self]
  · show despawn (despawn w e) e = despawn w e
    unfold despawn
    simp only
    congr 1
    · exact List.erase_of_not_mem wwf.entities_nodup.not_mem_erase
    · rw [List.map_map]
      apply List.map_congr_left
      intro p _
      show (p.1, adel (adel p.2 e) e) = (p.1, adel p.2 e)
      rw [adel_adel]
  · intro hne
    have he : e ∉ w.entities := by
      intro hc
      rw [show existsEntity w e = true from by simp [existsEntity, List.elem_iff, hc]]
        at hne
      cases hne
    show despawn w e = w
    unfold despawn
    have h1 : w.entities.erase e = w.entities := List.erase_of_not_mem he
    have h2 : w.components.map (fun p => (p.1, adel p.2 e)) = w.components := by
      have hc : ∀ p ∈ w.components, (p.1, adel p.2 e) = p := by
        intro p hp
        have hke : e ∉ p.2.map Prod.fst := by
          intro hk
          obtain ⟨q, hq, hqe⟩ := List.mem_map.mp hk
          exact he (hqe ▸ wwf.store_keys_alive p hp q hq)
        rw [adel_of_not_mem _ _ hke]
      rw [List.map_congr_left hc]
      simp
    rw [h1, h2]

def wC7 : WorldState :=
  runWOps 0 [.spawn, .attach (mkId 0) ⟨"Position", JVal.null⟩ (some (JVal.num 3)),
    .attach (mkId 0) ⟨"Velocity", JVal.null⟩ (some (JVal.num 4))]

theorem despawn_cascades_witness :
    WReachable 0 wC7 ∧
      (existsEntity (despawn wC7 (mkId 0)) (mkId 0) = false ∧
      (∀ c : CompType, hasComp (despawn wC7 (mkId 0)) (mkId 0) c = false) ∧
      despawn (despawn wC7 (mkId 0)) (mkId 0) = despawn wC7 (mkId 0) ∧
      (existsEntity wC7 (mkId 0) = false → despawn wC7 (mkId 0) = wC7)) :=
  ⟨⟨_, rfl⟩, despawn_cascades 0 wC7 ⟨_, rfl⟩ (mkId 0)⟩

/-! ## The system scheduler (`addSystem` / `tick`, world.ts lines 141-162)

Time instants (`performance.now()`) and frequencies are rationals; a system's
`run` body is irrelevant to the scheduling claim, so an execution is recorded
by pushing the system's name onto the tick's execution log. -/

structure SystemS : Type where
  name : String
  frequency : Option ℚ

structure SchedState : Type where
  systems : List SystemS
  lastRun : List (String × ℚ)

def addSystem (st : SchedState) (s : SystemS) : SchedState :=
  ⟨st.systems ++ [s], aset st.lastRun s.name 0⟩

def tickStep (now : ℚ) (acc : List (String × ℚ) × List String) (s : SystemS) :
    List (String × ℚ) × List String :=
  match s.frequency with
  | some f =>
      let lastRun := (alookup acc.1 s.name).getD 0
      if now - lastRun < 1000 / f then acc
      else (aset acc.1 s.name now, acc.2 ++ [s.name])
  | none => (acc.1, acc.2 ++ [s.name])

def tick (st : SchedState) (now : ℚ) : SchedState × List String :=
  let r := st.systems.foldl (tickStep now) (st.lastRun, [])
  (⟨st.systems, r.1⟩, r.2)

/-- The gating predicate of the specification, evaluated against the
pre-tick `lastRun` table: frequency-capped systems run iff at least
`1000 / f` milliseconds have elapsed since the recorded last run. -/
def shouldRun (lastRun0 : List (String × ℚ)) (now : ℚ) (s : SystemS) : Bool :=
  match s.frequency with
  | none => true
  | some f => decide (1000 / f ≤ now - (alookup lastRun0 s.name).getD 0)

theorem tickFold_spec (now : ℚ) (lr0 : List (String × ℚ)) :
    ∀ (systems : List SystemS) (lr : List (String × ℚ)) (log : List String),
      (systems.map SystemS.name).Nodup →
      (∀ s ∈ systems, alookup lr s.name = alookup lr0 s.name) →
      (systems.foldl (tickStep now) (lr, log)).2 =
          log ++ (systems.filter (shouldRun lr0 now)).map SystemS.name ∧
      (∀ s ∈ systems,
        alookup (systems.foldl (tickStep now) (lr, log)).1 s.name =
          if shouldRun lr0 now s = true ∧ s.frequency ≠ none
          then some now else alookup lr0 s.name) ∧
      (∀ n, n ∉ systems.map SystemS.name →
        alookup (systems.foldl (tickStep now) (lr, log)).1 n = alookup lr n) := by
  intro systems
  induction systems with
  | nil =>
      intro lr log _ _
      exact ⟨by simp, by simp, fun n _ => rfl⟩
  | cons s rest ih =>
      intro lr log hnd hlr
      simp only [List.map_cons, List.nodup_cons] at hnd
      have hlrs : alookup lr s.name = alookup lr0 s.name := hlr s (by simp)
      have hrest_pres : ∀ lr' : List (String × ℚ),
          (∀ t ∈ rest, alookup lr' t.name = alookup lr t.name) →
          (∀ t ∈ rest, alookup lr' t.name = alookup lr0 t.name) :=
        fun lr' h t ht => (h t ht).trans (hlr t (by simp [ht]))
      cases hf : s.frequency with
      | none =>
          have hstep : tickStep now (lr, log) s = (lr, log ++ [s.name]) := by
            simp [tickStep, hf]
          rw [List.foldl_cons, hstep]
          obtain ⟨ih1, ih2, ih3⟩ := ih lr (log ++ [s.name]) hnd.2
            (fun t ht => hlr t (by simp [ht]))
          refine ⟨?_, ?_, ?_⟩
          · rw [ih1]
            have hrun : shouldRun lr0 now s = true := by simp [shouldRun, hf]
            simp [List.filter_cons, hrun]
          · intro t ht
            rcases List.mem_cons.mp ht with ht | ht
            · subst ht
              have : shouldRun lr0 now t = true ∧ t.frequency ≠ none ↔ False := by
                simp [hf]
              rw [if_neg (by simp [hf])]
              rw [ih3 t.name hnd.1, hlrs]
            · exact ih2 t ht
          · intro n hn
            simp only [List.map_cons, List.mem_cons] at hn
            push_neg at hn
            exact ih3 n hn.2
      | some f =>
          by_cases hskip : now - (alookup lr s.name).getD 0 < 1000 / f
          · have hstep : tickStep now (lr, log) s = (lr, log) := by
              simp [tickStep, hf, hskip]
            rw [List.foldl_cons, hstep]
            obtain ⟨ih1, ih2, ih3⟩ := ih lr log hnd.2
              (fun t ht => hlr t (by simp [ht]))
            have hnorun : shouldRun lr0 now s = false := by
              simp only [shouldRun, hf, decide_eq_false_iff_not, not_le]
              rw [← hlrs]
              exact hskip
            refine ⟨?_, ?_, ?_⟩
            · rw [ih1]
              simp [List.filter_cons, hnorun]
            · intro t ht
              rcases List.mem_cons.mp ht with ht | ht
              · subst ht
                rw [if_neg (by simp [hnorun])]
                rw [ih3 t.name hnd.1, hlrs]
              · exact ih2 t ht
            · intro n hn
              simp only [List.map_cons, List.mem_cons] at hn
              push_neg at hn
              exact ih3 n hn.2
          · have hstep : tickStep now (lr, log) s =
                (aset lr s.name now, log ++ [s.name]) := by
              simp [tickStep, hf, hskip]
            rw [List.foldl_cons, hstep]
            have hlr' : ∀ t ∈ rest, alookup (aset lr s.name now) t.name =
                alookup lr0 t.name := by
              intro t ht
              have htne : t.name ≠ s.name := by
                intro hc
                exact hnd.1 (hc ▸ List.mem_map.mpr ⟨t, ht, rfl⟩)
              rw [alookup_aset_ne lr s.name t.name now htne]
              exact hlr t (by simp [ht])
            obtain ⟨ih1, ih2, ih3⟩ := ih (aset lr s.name now) (log ++ [s.name])
              hnd.2 hlr'
            have hrun : shouldRun lr0 now s = true := by
              simp only [shouldRun, hf, decide_eq_true_eq]
              rw [← hlrs]
              exact not_lt.mp hskip
            refine ⟨?_, ?_, ?_⟩
            · rw [ih1]
              simp [List.filter_cons, hrun]
            · intro t ht
              rcases List.mem_cons.mp ht with ht | ht
              · subst ht
                rw [if_pos ⟨hrun, by simp [hf]⟩]
                rw [ih3 t.name hnd.1, alookup_aset_self]
              · exact ih2 t ht
            · intro n hn
              simp only [List.map_cons, List.mem_cons] at hn
              push_neg at hn
              rw [ih3 n hn.2, alookup_aset_ne lr s.name n now hn.1]

/-- C6: during `tick`, systems are considered in registration order; a
frequency-capped system executes iff at least `1000 / f` ms have elapsed since
its recorded last run, in which case `now` is recorded as its last run, and
when skipped its timestamp is untouched; systems without a cap always execute
and their timestamps are never updated by `tick`.  Distinct system names are
assumed (the source keys the last-run table by name), and declared frequencies
are positive (in JS `1000/0 = Infinity` disables a zero-frequency system;
rational division by zero would not model that). -/
theorem tick_frequency_gating (st : SchedState) (now : ℚ)
    (hnd : (st.systems.map SystemS.name).Nodup)
    (_hpos : ∀ s ∈ st.systems, ∀ f, s.frequency = some f → 0 < f) :
    (tick st now).2 = (st.systems.filter (shouldRun st.lastRun now)).map SystemS.name ∧
    (tick st now).1.systems = st.systems ∧
    (∀ s ∈ st.systems,
      alookup (tick st now).1.lastRun s.name =
        if shouldRun st.lastRun now s = true ∧ s.frequency ≠ none
        then some now else alookup st.lastRun s.name) := by
  obtain ⟨h1, h2, _⟩ := tickFold_spec now st.lastRun st.systems st.lastRun [] hnd
    (fun s _ => rfl)
  refine ⟨?_, rfl, ?_⟩
  · rw [show (tick st now).2 = (st.systems.foldl (tickStep now) (st.lastRun, [])).2
      from rfl]
    rw [h1]
    rfl
  · intro s hs
    rw [show (tick st now).1.lastRun = (st.systems.foldl (tickStep now)
      (st.lastRun, [])).1 from rfl]
    exact h2 s hs

def schedC6 : SchedState :=
  addSystem (addSystem (addSystem ⟨[], []⟩ ⟨"physics", none⟩)
    ⟨"slow", some 2⟩) ⟨"fast", some 100⟩

theorem tick_frequency_gating_witness :
    ((schedC6.systems.map SystemS.name).Nodup ∧
      ∀ s ∈ schedC6.systems, ∀ f, s.frequency = some f → 0 < f) ∧
    ((tick schedC6 400).2 =
        (schedC6.systems.filter (shouldRun schedC6.lastRun 400)).map SystemS.name ∧
      (tick schedC6 400).1.systems = schedC6.systems ∧
      (∀ s ∈ schedC6.systems,
        alookup (tick schedC6 400).1.lastRun s.name =
          if shouldRun schedC6.lastRun 400 s = true ∧ s.frequency ≠ none
          then some 400 else alookup schedC6.lastRun s.name)) :=
  ⟨⟨by decide, by decide⟩,
    tick_frequency_gating schedC6 400 (by decide) (by decide)⟩

/-! ## Signals (`emit` / `subscribe`, world.ts lines 114-138)

`emit` iterates `for (const handler of subscribers)` directly over the live
JS `Set` — not over a snapshot.  The observable `Set`-iteration semantics:
elements are visited in insertion order; an element inserted during iteration
is appended and will be visited; a not-yet-visited element that is deleted is
skipped; deleting an already-visited element does not disturb the iterator.

Handlers are identified by numbers; what a handler does to this signal's
subscriber set when invoked is given by an environment mapping the handler to
a list of subscribe/unsubscribe actions (the payload plays no role in the
claim).  The iteration state is the pair (`done`, `rest`): the elements at or
before the iterator position, and the elements after it; the full set is
`done ++ rest` in insertion order.  Fuel bounds the number of handler
invocations — a mutating handler can genuinely make the JS loop run forever,
which `none` models. -/

inductive SigAction : Type where
  | sub (h : Nat)
  | unsub (h : Nat)

abbrev HEnv : Type := Nat → List SigAction

def applyAct (p : List Nat × List Nat) (a : SigAction) : List Nat × List Nat :=
  match a with
  | .sub x => if x ∈ p.1 ∨ x ∈ p.2 then p else (p.1, p.2 ++ [x])
  | .unsub x => if x ∈ p.2 then (p.1, p.2.erase x) else (p.1.erase x, p.2)

def emitLoop (env : HEnv) : Nat → List Nat → List Nat → List Nat → Option (List Nat)
  | _, _, [], log => some log
  | 0, _, _ :: _, _ => none
  | fuel + 1, done, h :: rest, log =>
      let p := (env h).foldl applyAct (done ++ [h], rest)
      emitLoop env fuel p.1 p.2 (log ++ [h])

/-- `emit`: returns the list of handler invocations, in order; `subs` is the
subscriber set at call start. -/
def emit (env : HEnv) (fuel : Nat) (subs : List Nat) : Option (List Nat) :=
  emitLoop env fuel [] subs []

/-- The environment of the counterexample: handler `0`, when invoked,
subscribes handler `1` to the same signal. -/
def envSub1 : HEnv := fun h => if h = 0 then [.sub 1] else []

/-- C1 counterexample: with handler `0` as the only subscriber at call start,
and handler `0` subscribing handler `1` during the emission, the emission also
invokes handler `1` — the iteration does NOT observe the subscriber set as it
existed at call start, so a handler subscribed during an emission changes
which handlers that same emission invokes. -/
theorem emit_counterexample :
    emit envSub1 2 [0] = some [0, 1] ∧ (1 : Nat) ∉ ([0] : List Nat) := by
  constructor
  · rfl
  · decide

theorem emitLoop_quiet (env : HEnv) :
    ∀ (rest : List Nat) (fuel : Nat) (done log : List Nat),
      rest.length ≤ fuel → (∀ h ∈ rest, env h = []) →
      emitLoop env fuel done rest log = some (log ++ rest) := by
  intro rest
  induction rest with
  | nil =>
      intro fuel done log _ _
      cases fuel <;> simp [emitLoop]
  | cons h rest ih =>
      intro fuel done log hfuel hquiet
      cases fuel with
      | zero => simp at hfuel
      | succ fuel =>
          rw [emitLoop]
          have henv : env h = [] := hquiet h (by simp)
          rw [henv]
          simp only [List.foldl_nil]
          rw [ih fuel (done ++ [h]) (log ++ [h]) (Nat.succ_le_succ_iff.mp hfuel)
            (fun x hx => hquiet x (by simp [hx]))]
          simp

/-- C1 (amended): when no handler invoked during the emission subscribes or
unsubscribes handlers of this signal, `emit` invokes exactly the subscribers
present at call start, each exactly once, in subscription order.  (When
handlers do mutate the subscriptions, the iteration is live: the
counterexample shows a handler subscribed during an emission is invoked by
that same emission.) -/
theorem emit_invokes_start_subscribers (env : HEnv) (subs : List Nat) (fuel : Nat)
    (hfuel : subs.length ≤ fuel) (hquiet : ∀ h ∈ subs, env h = []) :
    emit env fuel subs = some subs := by
  rw [emit, emitLoop_quiet env subs fuel [] [] hfuel hquiet]
  simp

theorem emit_invokes_start_subscribers_witness :
    ([5, 7] : List Nat).length ≤ 2 ∧ (∀ h ∈ ([5, 7] : List Nat), (fun _ => []) h = ([] : List SigAction)) ∧
      emit (fun _ => []) 2 [5, 7] = some [5, 7] :=
  ⟨by decide, fun h _ => rfl,
    emit_invokes_start_subscribers (fun _ => []) [5, 7] 2 (by decide) (fun h _ => rfl)⟩

/-! ## Serialization (`serialization.ts`)

Registries are `Map`s keyed by the type's name; their `getAll()` lists are
modelled as plain lists (with name-uniqueness as a hypothesis where it
matters) and `get(name)` as `find?` on the name.  A thrown error is
`Except.error`. -/

structure SEntity : Type where
  id : String
  components : List (String × JVal)

structure Snapshot : Type where
  version : Int
  entities : List SEntity
  resources : List (String × JVal)

/-- Entity discovery: the union (a JS `Set`) of `world.query(c)` over every
registered component type, in encounter order. -/
def discoverEntities (w : WorldState) (reg : List CompType) : List String :=
  reg.foldl (fun acc c => (query w [c]).foldl sadd acc) []

/-- One component of the per-entity object built by `serializeWorld`. -/
def serEntStep (w : WorldState) (e : String) (acc : List (String × JVal))
    (c : CompType) : List (String × JVal) :=
  if hasComp w e c then
    match getComp w e c with
    | some v => if isSerializable v then aset acc c.name v else acc
    | none => acc
  else acc

/-- The per-entity component object built by `serializeWorld`. -/
def serializeEntity (w : WorldState) (reg : List CompType) (e : String) : SEntity :=
  ⟨e, reg.foldl (serEntStep w e) []⟩

def serializeWorld (w : WorldState) (reg : List CompType) : Snapshot :=
  ⟨1, (discoverEntities w reg).map (fun e => serializeEntity w reg e), []⟩

/-- One resource of the resource pass of `serializeWorldWithResources`: note
`world.getResource` lazily initialises an absent resource, so the world state
is threaded through. -/
def serResStep (incl : Option (List String)) (excl : List String)
    (acc : WorldState × List (String × JVal)) (rt : ResType) :
    WorldState × List (String × JVal) :=
  if rt.name ∈ excl then acc
  else if (match incl with | some l => decide (rt.name ∉ l) | none => false) = true
  then acc
  else
    let r := getResource acc.1 rt
    if isSerializable r.2 then (r.1, aset acc.2 rt.name r.2) else (r.1, acc.2)

def serializeWorldWithResources (w : WorldState) (reg : List CompType)
    (rreg : List ResType) (incl : Option (List String)) (excl : List String) :
    WorldState × Snapshot :=
  let base := serializeWorld w reg
  let r := rreg.foldl (serResStep incl excl) (w, [])
  (r.1, { base with resources := r.2 })

def regGet (reg : List CompType) (n : String) : Option CompType :=
  reg.find? (fun c => c.name == n)

def rregGet (rreg : List ResType) (n : String) : Option ResType :=
  rreg.find? (fun r => r.name == n)

/-- Attaching one serialized component during restore: unknown names are
skipped with a warning. -/
def desAttachStep (reg : List CompType) (e : String) (wacc : WorldState)
    (p : String × JVal) : WorldState :=
  match regGet reg p.1 with
  | some ct => attach wacc e ct (some p.2)
  | none => wacc

/-- Restoring one serialized entity: spawn a brand-new id, then attach every
component whose name the registry knows. -/
def desEntStep (reg : List CompType) (w : WorldState) (se : SEntity) : WorldState :=
  let s := spawn w
  se.components.foldl (desAttachStep reg s.2) s.1

def desResStep (rl : List ResType) (w : WorldState) (p : String × JVal) : WorldState :=
  match rregGet rl p.1 with
  | some rt => setResource w rt p.2
  | none => w

def deserializeWorld (snap : Snapshot) (reg : List CompType)
    (rreg : Option (List ResType)) (g0 : Nat) : Except String WorldState :=
  if snap.version ≠ 1 then
    Except.error "Unsupported snapshot version"
  else
    let w1 := snap.entities.foldl (desEntStep reg) (createWorld g0)
    let w2 :=
      match rreg with
      | some rl => snap.resources.foldl (desResStep rl) w1
      | none => w1
    Except.ok w2

/-! ### `snapshotFromJSON` shape validation

The input is the value produced by `JSON.parse`; property access on a
non-object yields `undefined` (`none`). -/

def jGet (v : JVal) (k : String) : Option JVal :=
  match v with
  | .obj fields => alookup fields k
  | _ => none

def jsTypeofNumber (v : Option JVal) : Bool :=
  match v with
  | some (.num _) => true
  | _ => false

/-- `Array.isArray`. -/
def jsIsArray (v : Option JVal) : Bool :=
  match v with
  | some (.arr _) => true
  | _ => false

/-- `typeof x === "object"` — true for plain objects, arrays and `null`. -/
def jsTypeofObject (v : Option JVal) : Bool :=
  match v with
  | some .null => true
  | some (.arr _) => true
  | some (.obj _) => true
  | _ => false

def jsIsNull (v : Option JVal) : Bool :=
  match v with
  | some .null => true
  | _ => false

def snapshotFromJSON (doc : JVal) : Except String JVal :=
  if jsTypeofNumber (jGet doc "version") = false then
    Except.error "Invalid snapshot: missing version"
  else if jsIsArray (jGet doc "entities") = false then
    Except.error "Invalid snapshot: entities must be an array"
  else if jsTypeofObject (jGet doc "resources") = false then
    Except.error "Invalid snapshot: resources must be an object"
  else if jsIsNull (jGet doc "resources") = true then
    Except.error "Invalid snapshot: resources must be an object"
  else
    Except.ok doc

/-- C9: `deserializeWorld` fails with a version-mismatch error on every
snapshot whose version is not 1, producing no world; `snapshotFromJSON` fails
on every parsed document whose `entities` field is not an array or whose
`resources` field is not a non-null object (in the JS sense: `typeof` is
`"object"` and the value is not `null`).  Both are hard failures returned to
the caller — an `Except.error` carries no world and no partially-built
snapshot. -/
theorem snapshot_validation_hard_failures (snap : Snapshot) (reg : List CompType)
    (rreg : Option (List ResType)) (g0 : Nat) (doc : JVal) :
    (snap.version ≠ 1 →
      deserializeWorld snap reg rreg g0 = Except.error "Unsupported snapshot version") ∧
    (jsIsArray (jGet doc "entities") = false →
      ∃ msg, snapshotFromJSON doc = Except.error msg) ∧
    ((jsTypeofObject (jGet doc "resources") = false ∨
        jsIsNull (jGet doc "resources") = true) →
      ∃ msg, snapshotFromJSON doc = Except.error msg) := by
  refine ⟨?_, ?_, ?_⟩
  · intro hv
    rw [deserializeWorld, if_pos hv]
  · intro harr
    unfold snapshotFromJSON
    by_cases h1 : jsTypeofNumber (jGet doc "version") = false
    · rw [if_pos h1]
      exact ⟨_, rfl⟩
    · rw [if_neg h1, if_pos harr]
      exact ⟨_, rfl⟩
  · intro hres
    unfold snapshotFromJSON
    by_cases h1 : jsTypeofNumber (jGet doc "version") = false
    · rw [if_pos h1]
      exact ⟨_, rfl⟩
    · rw [if_neg h1]
      by_cases h2 : jsIsArray (jGet doc "entities") = false
      · rw [if_pos h2]
        exact ⟨_, rfl⟩
      · rw [if_neg h2]
        rcases hres with hres | hres
        · rw [if_pos hres]
          exact ⟨_, rfl⟩
        · by_cases h3 : jsTypeofObject (jGet doc "resources") = false
          · rw [if_pos h3]
            exact ⟨_, rfl⟩
          · rw [if_neg h3, if_pos hres]
            exact ⟨_, rfl⟩

theorem snapshot_validation_hard_failures_witness :
    ((⟨2, [], []⟩ : Snapshot).version ≠ 1 ∧
      deserializeWorld ⟨2, [], []⟩ [] none 0 =
        Except.error "Unsupported snapshot version") ∧
    (jsIsArray (jGet (JVal.obj [("version", JVal.num 1), ("entities", JVal.num 7)])
        "entities") = false ∧
      ∃ msg, snapshotFromJSON
        (JVal.obj [("version", JVal.num 1), ("entities", JVal.num 7)]) =
          Except.error msg) ∧
    (jsIsNull (jGet (JVal.obj [("version", JVal.num 1),
        ("entities", JVal.arr []), ("resources", JVal.null)]) "resources") = true ∧
      ∃ msg, snapshotFromJSON (JVal.obj [("version", JVal.num 1),
        ("entities", JVal.arr []), ("resources", JVal.null)]) = Except.error msg) :=
  ⟨⟨by decide,
      (snapshot_validation_hard_failures ⟨2, [], []⟩ [] none 0 JVal.null).1 (by decide)⟩,
    ⟨rfl,
      (snapshot_validation_hard_failures ⟨1, [], []⟩ [] none 0
        (JVal.obj [("version", JVal.num 1), ("entities", JVal.num 7)])).2.1 rfl⟩,
    ⟨rfl,
      (snapshot_validation_hard_failures ⟨1, [], []⟩ [] none 0
        (JVal.obj [("version", JVal.num 1), ("entities", JVal.arr []),
          ("resources", JVal.null)])).2.2 (Or.inr rfl)⟩⟩

/-! ### Operation-level lemmas feeding the round-trip proof -/

theorem nullish_of_ne_null {v : JVal} (h : v ≠ JVal.null) (d : JVal) :
    nullish (some v) d = v := by
  cases v <;> first | rfl | exact absurd rfl h

theorem spawn_components (w : WorldState) : (spawn w).1.components = w.components := rfl

theorem spawn_resources (w : WorldState) : (spawn w).1.resources = w.resources := rfl

theorem spawn_entities (w : WorldState) :
    (spawn w).1.entities = sadd w.entities (mkId w.nextId) := rfl

theorem spawn_nextId (w : WorldState) : (spawn w).1.nextId = w.nextId + 1 := rfl

theorem spawn_id (w : WorldState) : (spawn w).2 = mkId w.nextId := rfl

theorem attach_entities (w : WorldState) (e : String) (c : CompType) (v : Option JVal) :
    (attach w e c v).entities = w.entities := by
  unfold attach
  by_cases he : e ∈ w.entities <;> simp [he]

theorem attach_nextId (w : WorldState) (e : String) (c : CompType) (v : Option JVal) :
    (attach w e c v).nextId = w.nextId := by
  unfold attach
  by_cases he : e ∈ w.entities <;> simp [he]

theorem attach_resources (w : WorldState) (e : String) (c : CompType) (v : Option JVal) :
    (attach w e c v).resources = w.resources := by
  unfold attach
  by_cases he : e ∈ w.entities <;> simp [he]

theorem getComp_attach_self (w : WorldState) (e : String) (c : CompType)
    (v : Option JVal) (he : e ∈ w.entities) :
    getComp (attach w e c v) e c = some (nullish v c.dflt) := by
  unfold getComp attach
  simp only [he, if_true]
  rw [alookup_aset_self]
  simp only [Option.some_bind]
  rw [alookup_aset_self]

theorem getComp_attach_other (w : WorldState) (e : String) (c : CompType)
    (v : Option JVal) (e' : String) (c' : CompType)
    (h : c'.name ≠ c.name ∨ e' ≠ e) :
    getComp (attach w e c v) e' c' = getComp w e' c' := by
  unfold getComp attach
  by_cases he : e ∈ w.entities
  · simp only [he, if_true]
    rcases h with h | h
    · rw [alookup_aset_ne w.components c.name c'.name _ h]
    · by_cases hc : c'.name = c.name
      · rw [hc, alookup_aset_self]
        simp only [Option.some_bind]
        rw [alookup_aset_ne _ e e' _ h]
        cases hs : alookup w.components c.name with
        | none => simp [alookup]
        | some s => simp
      · rw [alookup_aset_ne w.components c.name c'.name _ hc]
  · simp [he]

theorem setResource_components (w : WorldState) (r : ResType) (v : JVal) :
    (setResource w r v).components = w.components := rfl

theorem setResource_entities (w : WorldState) (r : ResType) (v : JVal) :
    (setResource w r v).entities = w.entities := rfl

theorem setResource_resources (w : WorldState) (r : ResType) (v : JVal) :
    (setResource w r v).resources = aset w.resources r.name v := rfl

theorem getResource_fst_resources_other (w : WorldState) (r : ResType) (k : String)
    (hk : k ≠ r.name) :
    alookup (getResource w r).1.resources k = alookup w.resources k := by
  unfold getResource
  cases h : alookup w.resources r.name with
  | some v => rfl
  | none =>
      simp only
      exact alookup_aset_ne w.resources r.name k _ hk

theorem getResource_snd (w : WorldState) (r : ResType) :
    (getResource w r).2 =
      match alookup w.resources r.name with
      | some v => v
      | none => r.dflt := by
  unfold getResource
  cases h : alookup w.resources r.name <;> simp

theorem getResource_fst_components (w : WorldState) (r : ResType) :
    (getResource w r).1.components = w.components := by
  unfold getResource
  cases h : alookup w.resources r.name <;> rfl

theorem getResource_fst_entities (w : WorldState) (r : ResType) :
    (getResource w r).1.entities = w.entities := by
  unfold getResource
  cases h : alookup w.resources r.name <;> rfl

theorem hasComp_eq_isSome (w : WorldState) (e : String) (c : CompType) :
    hasComp w e c = (getComp w e c).isSome := by
  unfold hasComp getComp
  cases h : alookup w.components c.name <;> simp

/-- `getComp` is `none` on an identifier that is not a live entity (in a
well-formed world there are no dangling store entries). -/
theorem getComp_not_alive {w : WorldState} (hw : WWF w) {e : String}
    (he : e ∉ w.entities) (c : CompType) : getComp w e c = none := by
  unfold getComp
  cases h : alookup w.components c.name with
  | none => rfl
  | some s =>
      simp only [Option.some_bind]
      cases hs : alookup s e with
      | none => rfl
      | some v =>
          exact absurd
            (hw.store_keys_alive (c.name, s) (mem_of_alookup h) (e, v)
              (mem_of_alookup hs)) he

theorem regGet_name {reg : List CompType} {n : String} {ct : CompType}
    (h : regGet reg n = some ct) : ct.name = n := by
  have := List.find?_some h
  simpa using this

theorem regGet_self {reg : List CompType} (hnd : (reg.map CompType.name).Nodup)
    {ct : CompType} (hct : ct ∈ reg) : regGet reg ct.name = some ct := by
  induction reg with
  | nil => simp at hct
  | cons c rest ih =>
      simp only [List.map_cons, List.nodup_cons] at hnd
      rcases List.mem_cons.mp hct with hct | hct
      · subst hct
        simp [regGet, List.find?]
      · have hne : c.name ≠ ct.name := by
          intro hc
          exact hnd.1 (hc ▸ List.mem_map.mpr ⟨ct, hct, rfl⟩)
        unfold regGet at ih ⊢
        rw [List.find?]
        have : (c.name == ct.name) = false := by
          simp [hne]
        rw [this]
        exact ih hnd.2 hct

theorem rregGet_name {rreg : List ResType} {n : String} {rt : ResType}
    (h : rregGet rreg n = some rt) : rt.name = n := by
  have := List.find?_some h
  simpa using this

theorem rregGet_self {rreg : List ResType} (hnd : (rreg.map ResType.name).Nodup)
    {rt : ResType} (hrt : rt ∈ rreg) : rregGet rreg rt.name = some rt := by
  induction rreg with
  | nil => simp at hrt
  | cons c rest ih =>
      simp only [List.map_cons, List.nodup_cons] at hnd
      rcases List.mem_cons.mp hrt with hrt | hrt
      · subst hrt
        simp [rregGet, List.find?]
      · have hne : c.name ≠ rt.name := by
          intro hc
          exact hnd.1 (hc ▸ List.mem_map.mpr ⟨rt, hrt, rfl⟩)
        unfold rregGet at ih ⊢
        rw [List.find?]
        have : (c.name == rt.name) = false := by
          simp [hne]
        rw [this]
        exact ih hnd.2 hrt

/-! ### Entity discovery -/

theorem mem_foldl_sadd (l : List String) :
    ∀ (acc : List String) (x : String), x ∈ l.foldl sadd acc ↔ x ∈ acc ∨ x ∈ l := by
  induction l with
  | nil => simp
  | cons y t ih =>
      intro acc x
      rw [List.foldl_cons, ih]
      rw [mem_sadd]
      simp only [List.mem_cons]
      tauto

theorem nodup_foldl_sadd (l : List String) :
    ∀ acc : List String, acc.Nodup → (l.foldl sadd acc).Nodup := by
  induction l with
  | nil => exact fun acc h => h
  | cons y t ih =>
      intro acc h
      exact ih _ (sadd_nodup _ _ h)

theorem mem_discover_aux (w : WorldState) (reg : List CompType) :
    ∀ (acc : List String) (x : String),
      x ∈ reg.foldl (fun acc c => (query w [c]).foldl sadd acc) acc ↔
        x ∈ acc ∨ ∃ c ∈ reg, x ∈ query w [c] := by
  induction reg with
  | nil => simp
  | cons c rest ih =>
      intro acc x
      rw [List.foldl_cons, ih, mem_foldl_sadd]
      simp only [List.mem_cons]
      constructor
      · rintro ((h | h) | ⟨c', hc', h⟩)
        · exact Or.inl h
        · exact Or.inr ⟨c, Or.inl rfl, h⟩
        · exact Or.inr ⟨c', Or.inr hc', h⟩
      · rintro (h | ⟨c', (hc' | hc'), h⟩)
        · exact Or.inl (Or.inl h)
        · subst hc'
          exact Or.inl (Or.inr h)
        · exact Or.inr ⟨c', hc', h⟩

theorem mem_discoverEntities (w : WorldState) (reg : List CompType) (x : String) :
    x ∈ discoverEntities w reg ↔ ∃ c ∈ reg, x ∈ query w [c] := by
  rw [discoverEntities, mem_discover_aux]
  simp

theorem discover_nodup_aux (w : WorldState) (reg : List CompType) :
    ∀ acc : List String, acc.Nodup →
      (reg.foldl (fun acc c => (query w [c]).foldl sadd acc) acc).Nodup := by
  induction reg with
  | nil => exact fun _ h => h
  | cons c rest ih =>
      intro acc h
      exact ih _ (nodup_foldl_sadd _ _ h)

theorem discoverEntities_nodup (w : WorldState) (reg : List CompType) :
    (discoverEntities w reg).Nodup :=
  discover_nodup_aux w reg [] (by simp)

theorem mem_query_single (w : WorldState) (c : CompType) (e : String) :
    e ∈ query w [c] ↔ e ∈ w.entities ∧ hasComp w e c = true := by
  rw [query, List.mem_filter]
  simp

theorem discoverEntities_sub (w : WorldState) (reg : List CompType) (x : String)
    (hx : x ∈ discoverEntities w reg) : x ∈ w.entities := by
  obtain ⟨c, _, hq⟩ := (mem_discoverEntities w reg x).mp hx
  exact ((mem_query_single w c x).mp hq).1

theorem discoverEntities_complete (w : WorldState) (reg : List CompType) (x : String)
    (hx : x ∈ w.entities) (hc : ∃ c ∈ reg, hasComp w x c = true) :
    x ∈ discoverEntities w reg := by
  obtain ⟨c, hcr, hhc⟩ := hc
  exact (mem_discoverEntities w reg x).mpr
    ⟨c, hcr, (mem_query_single w c x).mpr ⟨hx, hhc⟩⟩

/-! ### The serialized value of one component slot -/

/-- What the snapshot records for entity `e` under component type `c`:
the stored value if present and serializable, nothing otherwise. -/
def serVal (w : WorldState) (e : String) (c : CompType) : Option JVal :=
  match getComp w e c with
  | some v => if isSerializable v then some v else none
  | none => none

theorem serEntStep_eq (w : WorldState) (e : String) (acc : List (String × JVal))
    (c : CompType) :
    serEntStep w e acc c =
      match serVal w e c with
      | some v => aset acc c.name v
      | none => acc := by
  unfold serEntStep serVal
  rw [hasComp_eq_isSome]
  cases h : getComp w e c with
  | none => simp
  | some v =>
      by_cases hs : isSerializable v = true
      · simp [hs]
      · simp [hs]

theorem serEntFold_other (w : WorldState) (e : String) :
    ∀ (reg : List CompType) (acc : List (String × JVal)) (k : String),
      (∀ c ∈ reg, c.name ≠ k) →
      alookup (reg.foldl (serEntStep w e) acc) k = alookup acc k := by
  intro reg
  induction reg with
  | nil => exact fun _ _ _ => rfl
  | cons c rest ih =>
      intro acc k hk
      rw [List.foldl_cons, serEntStep_eq]
      cases h : serVal w e c with
      | none => exact ih _ _ (fun c' hc' => hk c' (by simp [hc']))
      | some v =>
          rw [ih _ _ (fun c' hc' => hk c' (by simp [hc']))]
          exact alookup_aset_ne acc c.name k v (Ne.symm (hk c (by simp)))

theorem serEntFold_lookup (w : WorldState) (e : String) :
    ∀ (reg : List CompType) (acc : List (String × JVal)),
      (reg.map CompType.name).Nodup →
      ∀ c ∈ reg, c.name ∉ acc.map Prod.fst →
      alookup (reg.foldl (serEntStep w e) acc) c.name = serVal w e c := by
  intro reg
  induction reg with
  | nil => intro acc _ c hc; simp at hc
  | cons c' rest ih =>
      intro acc hnd c hc hk
      simp only [List.map_cons, List.nodup_cons] at hnd
      rw [List.foldl_cons, serEntStep_eq]
      rcases List.mem_cons.mp hc with hceq | hcr
      · subst hceq
        have hrest : ∀ c'' ∈ rest, c''.name ≠ c.name := by
          intro c'' hc'' hcontra
          exact hnd.1 (hcontra ▸ List.mem_map.mpr ⟨c'', hc'', rfl⟩)
        cases h : serVal w e c with
        | none =>
            rw [serEntFold_other w e rest acc c.name hrest]
            exact (alookup_eq_none acc c.name).mpr hk
        | some v =>
            rw [serEntFold_other w e rest _ c.name hrest]
            exact alookup_aset_self acc c.name v
      · have hne : c'.name ≠ c.name := by
          intro hcontra
          exact hnd.1 (hcontra ▸ List.mem_map.mpr ⟨c, hcr, rfl⟩)
        cases h : serVal w e c' with
        | none => exact ih acc hnd.2 c hcr hk
        | some v =>
            refine ih _ hnd.2 c hcr ?_
            intro hcontra
            obtain ⟨q, hq, hqe⟩ := List.mem_map.mp hcontra
            rcases mem_aset q hq with hq | hq
            · exact hk (List.mem_map.mpr ⟨q, hq, hqe⟩)
            · subst hq
              exact hne hqe

theorem serEntFold_keys_nodup (w : WorldState) (e : String) :
    ∀ (reg : List CompType) (acc : List (String × JVal)),
      (acc.map Prod.fst).Nodup →
      ((reg.foldl (serEntStep w e) acc).map Prod.fst).Nodup := by
  intro reg
  induction reg with
  | nil => exact fun _ h => h
  | cons c rest ih =>
      intro acc h
      rw [List.foldl_cons, serEntStep_eq]
      cases hv : serVal w e c with
      | none => exact ih _ h
      | some v => exact ih _ (keys_aset_nodup _ _ _ h)

theorem serializeEntity_lookup (w : WorldState) (reg : List CompType) (e : String)
    (hnd : (reg.map CompType.name).Nodup) (c : CompType) (hc : c ∈ reg) :
    alookup (serializeEntity w reg e).components c.name = serVal w e c :=
  serEntFold_lookup w e reg [] hnd c hc (by simp)

theorem serializeEntity_keys_nodup (w : WorldState) (reg : List CompType) (e : String) :
    ((serializeEntity w reg e).components.map Prod.fst).Nodup :=
  serEntFold_keys_nodup w e reg [] (by simp)

/-! ### The resource pass of `serializeWorldWithResources` (no include /
exclude filters, as in the round-trip claim) -/

theorem serResStep_default (wcur : WorldState) (m : List (String × JVal)) (rt : ResType) :
    serResStep none [] (wcur, m) rt =
      if isSerializable (getResource wcur rt).2 = true
      then ((getResource wcur rt).1, aset m rt.name (getResource wcur rt).2)
      else ((getResource wcur rt).1, m) := by
  unfold serResStep
  simp only [List.not_mem_nil, if_false]
  by_cases hs : isSerializable (getResource wcur rt).2 = true
  · simp [hs]
  · simp only [Bool.not_eq_true] at hs
    simp [hs]

theorem serResFold_m_other (rreg : List ResType) :
    ∀ (wcur : WorldState) (m : List (String × JVal)) (k : String),
      (∀ rt ∈ rreg, rt.name ≠ k) →
      alookup (rreg.foldl (serResStep none []) (wcur, m)).2 k = alookup m k := by
  induction rreg with
  | nil => exact fun _ _ _ _ => rfl
  | cons rt rest ih =>
      intro wcur m k hk
      rw [List.foldl_cons, serResStep_default]
      by_cases hs : isSerializable (getResource wcur rt).2 = true
      · rw [if_pos hs, ih _ _ _ (fun r hr => hk r (by simp [hr]))]
        exact alookup_aset_ne m rt.name k _ (Ne.symm (hk rt (by simp)))
      · rw [if_neg hs]
        exact ih _ _ _ (fun r hr => hk r (by simp [hr]))

theorem serResFold_lookup (w : WorldState) :
    ∀ (rreg : List ResType) (wcur : WorldState) (m : List (String × JVal)),
      (rreg.map ResType.name).Nodup →
      (∀ rt ∈ rreg, alookup wcur.resources rt.name = alookup w.resources rt.name) →
      (∀ rt ∈ rreg, isSerializable (getResource w rt).2 = true) →
      ∀ rt ∈ rreg,
        alookup (rreg.foldl (serResStep none []) (wcur, m)).2 rt.name =
          some ((getResource w rt).2) := by
  intro rreg
  induction rreg with
  | nil => intro _ _ _ _ _ rt hrt; simp at hrt
  | cons rt0 rest ih =>
      intro wcur m hnd hcur hser rt hrt
      simp only [List.map_cons, List.nodup_cons] at hnd
      have hval : (getResource wcur rt0).2 = (getResource w rt0).2 := by
        rw [getResource_snd, getResource_snd, hcur rt0 (by simp)]
      have hwcur' : ∀ r ∈ rest, alookup (getResource wcur rt0).1.resources r.name =
          alookup w.resources r.name := by
        intro r hr
        have hne : r.name ≠ rt0.name := by
          intro hc
          exact hnd.1 (hc ▸ List.mem_map.mpr ⟨r, hr, rfl⟩)
        rw [getResource_fst_resources_other wcur rt0 r.name hne]
        exact hcur r (by simp [hr])
      rw [List.foldl_cons, serResStep_default]
      rw [hval, if_pos (hser rt0 (by simp))]
      rcases List.mem_cons.mp hrt with hrteq | hrtr
      · subst hrteq
        have hrest : ∀ r ∈ rest, r.name ≠ rt.name := by
          intro r hr hc
          exact hnd.1 (hc ▸ List.mem_map.mpr ⟨r, hr, rfl⟩)
        rw [serResFold_m_other rest _ _ rt.name hrest]
        exact alookup_aset_self m rt.name _
      · exact ih _ _ hnd.2 hwcur' (fun r hr => hser r (by simp [hr])) rt hrtr

theorem serResFold_keys_nodup (rreg : List ResType) :
    ∀ (wcur : WorldState) (m : List (String × JVal)),
      (m.map Prod.fst).Nodup →
      ((rreg.foldl (serResStep none []) (wcur, m)).2.map Prod.fst).Nodup := by
  induction rreg with
  | nil => exact fun _ _ h => h
  | cons rt rest ih =>
      intro wcur m h
      rw [List.foldl_cons, serResStep_default]
      by_cases hs : isSerializable (getResource wcur rt).2 = true
      · rw [if_pos hs]
        exact ih _ _ (keys_aset_nodup _ _ _ h)
      · rw [if_neg hs]
        exact ih _ _ h

theorem serResFold_keys_sub (rreg : List ResType) :
    ∀ (wcur : WorldState) (m : List (String × JVal)) (q : String × JVal),
      q ∈ (rreg.foldl (serResStep none []) (wcur, m)).2 →
      q.1 ∈ m.map Prod.fst ∨ ∃ rt ∈ rreg, q.1 = rt.name := by
  induction rreg with
  | nil =>
      intro _ m q hq
      exact Or.inl (List.mem_map.mpr ⟨q, hq, rfl⟩)
  | cons rt rest ih =>
      intro wcur m q hq
      rw [List.foldl_cons, serResStep_default] at hq
      by_cases hs : isSerializable (getResource wcur rt).2 = true
      · rw [if_pos hs] at hq
        rcases ih _ _ q hq with h | ⟨r, hr, he⟩
        · obtain ⟨p, hp, hpe⟩ := List.mem_map.mp h
          rcases mem_aset p hp with hp | hp
          · exact Or.inl (List.mem_map.mpr ⟨p, hp, hpe⟩)
          · subst hp
            exact Or.inr ⟨rt, by simp, hpe ▸ rfl⟩
        · exact Or.inr ⟨r, by simp [hr], he⟩
      · rw [if_neg hs] at hq
        rcases ih _ _ q hq with h | ⟨r, hr, he⟩
        · exact Or.inl h
        · exact Or.inr ⟨r, by simp [hr], he⟩

/-! ### The resource pass of `deserializeWorld` -/

theorem desResStep_components (rl : List ResType) (w : WorldState) (p : String × JVal) :
    (desResStep rl w p).components = w.components ∧
    (desResStep rl w p).entities = w.entities ∧
    (desResStep rl w p).nextId = w.nextId := by
  unfold desResStep
  cases h : rregGet rl p.1 <;> exact ⟨rfl, rfl, rfl⟩

theorem desResFold_components (rl : List ResType) :
    ∀ (entries : List (String × JVal)) (w1 : WorldState),
      (entries.foldl (desResStep rl) w1).components = w1.components ∧
      (entries.foldl (desResStep rl) w1).entities = w1.entities ∧
      (entries.foldl (desResStep rl) w1).nextId = w1.nextId := by
  intro entries
  induction entries with
  | nil => exact fun _ => ⟨rfl, rfl, rfl⟩
  | cons p rest ih =>
      intro w1
      rw [List.foldl_cons]
      obtain ⟨h1, h2, h3⟩ := ih (desResStep rl w1 p)
      obtain ⟨g1, g2, g3⟩ := desResStep_components rl w1 p
      exact ⟨h1.trans g1, h2.trans g2, h3.trans g3⟩

theorem desResFold_other (rl : List ResType) :
    ∀ (entries : List (String × JVal)) (w1 : WorldState) (k : String),
      (∀ p ∈ entries, p.1 ≠ k) →
      alookup (entries.foldl (desResStep rl) w1).resources k =
        alookup w1.resources k := by
  intro entries
  induction entries with
  | nil => exact fun _ _ _ => rfl
  | cons p rest ih =>
      intro w1 k hk
      rw [List.foldl_cons, ih _ _ (fun q hq => hk q (by simp [hq]))]
      unfold desResStep
      cases h : rregGet rl p.1 with
      | none => rfl
      | some rt =>
          rw [setResource_resources]
          have : rt.name = p.1 := rregGet_name h
          rw [this]
          exact alookup_aset_ne w1.resources p.1 k _ (Ne.symm (hk p (by simp)))

theorem desResFold_lookup (rl : List ResType) :
    ∀ (entries : List (String × JVal)) (w1 : WorldState),
      (entries.map Prod.fst).Nodup →
      (∀ p ∈ entries, (rregGet rl p.1).isSome = true) →
      ∀ k, alookup (entries.foldl (desResStep rl) w1).resources k =
        match alookup entries k with
        | some v => some v
        | none => alookup w1.resources k := by
  intro entries
  induction entries with
  | nil => exact fun _ _ _ _ => rfl
  | cons p rest ih =>
      intro w1 hnd hcov k
      simp only [List.map_cons, List.nodup_cons] at hnd
      rw [List.foldl_cons]
      by_cases hkp : p.1 = k
      · subst hkp
        have hrest : ∀ q ∈ rest, q.1 ≠ p.1 := by
          intro q hq hc
          exact hnd.1 (hc ▸ List.mem_map.mpr ⟨q, hq, rfl⟩)
        rw [desResFold_other rl rest _ p.1 hrest]
        have hsome := hcov p (by simp)
        rw [Option.isSome_iff_exists] at hsome
        obtain ⟨rt, hrt⟩ := hsome
        unfold desResStep
        rw [hrt, setResource_resources, rregGet_name hrt]
        rw [alookup_aset_self]
        simp [alookup]
      · rw [ih _ hnd.2 (fun q hq => hcov q (by simp [hq])) k]
        have hstep : alookup (desResStep rl w1 p).resources k =
            alookup w1.resources k := by
          unfold desResStep
          cases h : rregGet rl p.1 with
          | none => rfl
          | some rt =>
              rw [setResource_resources, rregGet_name h]
              exact alookup_aset_ne w1.resources p.1 k _ (Ne.symm hkp)
        rw [hstep]
        have : alookup ((p :: rest) : List (String × JVal)) k = alookup rest k := by
          show (if p.1 = k then some p.2 else alookup rest k) = alookup rest k
          rw [if_neg hkp]
        rw [this]

/-! ### The entity pass of `deserializeWorld` -/

theorem desAttachFold_shape (reg : List CompType) (e : String) :
    ∀ (comps : List (String × JVal)) (w2 : WorldState),
      (comps.foldl (desAttachStep reg e) w2).entities = w2.entities ∧
      (comps.foldl (desAttachStep reg e) w2).nextId = w2.nextId ∧
      (comps.foldl (desAttachStep reg e) w2).resources = w2.resources := by
  intro comps
  induction comps with
  | nil => exact fun _ => ⟨rfl, rfl, rfl⟩
  | cons p rest ih =>
      intro w2
      rw [List.foldl_cons]
      obtain ⟨h1, h2, h3⟩ := ih (desAttachStep reg e w2 p)
      have hstep : (desAttachStep reg e w2 p).entities = w2.entities ∧
          (desAttachStep reg e w2 p).nextId = w2.nextId ∧
          (desAttachStep reg e w2 p).resources = w2.resources := by
        unfold desAttachStep
        cases h : regGet reg p.1 with
        | none => exact ⟨rfl, rfl, rfl⟩
        | some ct =>
            exact ⟨attach_entities _ _ _ _, attach_nextId _ _ _ _,
              attach_resources _ _ _ _⟩
      exact ⟨h1.trans hstep.1, h2.trans hstep.2.1, h3.trans hstep.2.2⟩

theorem desAttachFold_other (reg : List CompType) (e : String) :
    ∀ (comps : List (String × JVal)) (w2 : WorldState) (e' : String) (c' : CompType),
      e' ≠ e →
      getComp (comps.foldl (desAttachStep reg e) w2) e' c' = getComp w2 e' c' := by
  intro comps
  induction comps with
  | nil => exact fun _ _ _ _ => rfl
  | cons p rest ih =>
      intro w2 e' c' hne
      rw [List.foldl_cons, ih _ e' c' hne]
      unfold desAttachStep
      cases h : regGet reg p.1 with
      | none => rfl
      | some ct => exact getComp_attach_other w2 e ct (some p.2) e' c' (Or.inr hne)

theorem desAttachFold_other_name (reg : List CompType) (e : String) :
    ∀ (comps : List (String × JVal)) (w2 : WorldState) (e'' : String) (cX : CompType),
      cX.name ∉ comps.map Prod.fst →
      getComp (comps.foldl (desAttachStep reg e) w2) e'' cX = getComp w2 e'' cX := by
  intro comps
  induction comps with
  | nil => exact fun _ _ _ _ => rfl
  | cons p rest ih =>
      intro w2 e'' cX hk
      simp only [List.map_cons, List.mem_cons] at hk
      push_neg at hk
      rw [List.foldl_cons, ih _ e'' cX hk.2]
      unfold desAttachStep
      cases h : regGet reg p.1 with
      | none => rfl
      | some ct =>
          refine getComp_attach_other w2 e ct (some p.2) e'' cX (Or.inl ?_)
          rw [regGet_name h]
          exact hk.1

theorem desAttachFold_self (reg : List CompType)
    (hnd : (reg.map CompType.name).Nodup) (e : String) :
    ∀ (comps : List (String × JVal)) (w2 : WorldState),
      e ∈ w2.entities → (comps.map Prod.fst).Nodup →
      ∀ ct ∈ reg,
        getComp (comps.foldl (desAttachStep reg e) w2) e ct =
          match alookup comps ct.name with
          | some v => some (nullish v ct.dflt)
          | none => getComp w2 e ct := by
  intro comps
  induction comps with
  | nil =>
      intro w2 _ _ ct _
      show getComp w2 e ct = match (none : Option JVal) with
        | some v => some (nullish v ct.dflt)
        | none => getComp w2 e ct
      rfl
  | cons p rest ih =>
      intro w2 he hknd ct hct
      simp only [List.map_cons, List.nodup_cons] at hknd
      rw [List.foldl_cons]
      by_cases hn : p.1 = ct.name
      · have hreg : regGet reg p.1 = some ct := by
          rw [hn]
          exact regGet_self hnd hct
        have hstep : desAttachStep reg e w2 p = attach w2 e ct (some p.2) := by
          unfold desAttachStep
          rw [hreg]
        rw [hstep]
        have hrest : ct.name ∉ rest.map Prod.fst := hn ▸ hknd.1
        rw [desAttachFold_other_name reg e rest _ e ct hrest]
        rw [getComp_attach_self w2 e ct (some p.2) he]
        have : alookup (p :: rest) ct.name = some p.2 := by
          show (if p.1 = ct.name then some p.2 else alookup rest ct.name) = some p.2
          rw [if_pos hn]
        rw [this]
      · have hlk : alookup (p :: rest) ct.name = alookup rest ct.name := by
          show (if p.1 = ct.name then some p.2 else alookup rest ct.name) =
            alookup rest ct.name
          rw [if_neg hn]
        rw [hlk]
        cases h : regGet reg p.1 with
        | none =>
            have hstep : desAttachStep reg e w2 p = w2 := by
              unfold desAttachStep
              rw [h]
            rw [hstep]
            exact ih w2 he hknd.2 ct hct
        | some ct' =>
            have hstep : desAttachStep reg e w2 p = attach w2 e ct' (some p.2) := by
              unfold desAttachStep
              rw [h]
            rw [hstep]
            have hihp := ih (attach w2 e ct' (some p.2))
              (by rw [attach_entities]; exact he) hknd.2 ct hct
            rw [hihp]
            cases hr : alookup rest ct.name with
            | some v => rfl
            | none =>
                exact getComp_attach_other w2 e ct' (some p.2) e ct
                  (Or.inl (by rw [regGet_name h]; exact fun hc => hn hc.symm))

theorem desAttachFold_wwf (reg : List CompType) (e : String) :
    ∀ (comps : List (String × JVal)) (w2 : WorldState), WWF w2 →
      WWF (comps.foldl (desAttachStep reg e) w2) := by
  intro comps
  induction comps with
  | nil => exact fun _ h => h
  | cons p rest ih =>
      intro w2 h
      rw [List.foldl_cons]
      refine ih _ ?_
      unfold desAttachStep
      cases hr : regGet reg p.1 with
      | none => exact h
      | some ct => exact WWF_attach h e ct (some p.2)

theorem fresh_not_mem {w : WorldState} (hw : WWF w) : mkId w.nextId ∉ w.entities := by
  intro hc
  obtain ⟨k, hk, he⟩ := hw.entities_bound _ hc
  have := mkId_injective he
  omega

theorem desEntStep_entities {reg : List CompType} {w : WorldState} (hw : WWF w)
    (se : SEntity) :
    (desEntStep reg w se).entities = w.entities ++ [mkId w.nextId] := by
  unfold desEntStep
  rw [(desAttachFold_shape reg _ se.components (spawn w).1).1, spawn_entities]
  unfold sadd
  rw [if_neg (fresh_not_mem hw)]

theorem desEntStep_nextId (reg : List CompType) (w : WorldState) (se : SEntity) :
    (desEntStep reg w se).nextId = w.nextId + 1 := by
  unfold desEntStep
  rw [(desAttachFold_shape reg _ se.components (spawn w).1).2.1, spawn_nextId]

theorem desEntStep_resources (reg : List CompType) (w : WorldState) (se : SEntity) :
    (desEntStep reg w se).resources = w.resources := by
  unfold desEntStep
  rw [(desAttachFold_shape reg _ se.components (spawn w).1).2.2, spawn_resources]

theorem desEntStep_wwf {reg : List CompType} {w : WorldState} (hw : WWF w)
    (se : SEntity) : WWF (desEntStep reg w se) := by
  unfold desEntStep
  exact desAttachFold_wwf reg _ se.components _ (WWF_spawn hw)

theorem desEntStep_getComp_new {reg : List CompType}
    (hnd : (reg.map CompType.name).Nodup) {w : WorldState} (hw : WWF w)
    (se : SEntity) (hks : (se.components.map Prod.fst).Nodup) :
    ∀ ct ∈ reg,
      getComp (desEntStep reg w se) (mkId w.nextId) ct =
        match alookup se.components ct.name with
        | some v => some (nullish v ct.dflt)
        | none => none := by
  intro ct hct
  show getComp (se.components.foldl (desAttachStep reg (spawn w).2) (spawn w).1)
      (mkId w.nextId) ct = _
  rw [spawn_id]
  have hmem : mkId w.nextId ∈ (spawn w).1.entities := by
    rw [spawn_entities]
    exact (mem_sadd _ _ _).mpr (Or.inr rfl)
  rw [desAttachFold_self reg hnd _ se.components (spawn w).1 hmem hks ct hct]
  cases h : alookup se.components ct.name with
  | some v => rfl
  | none =>
      show getComp (spawn w).1 (mkId w.nextId) ct = none
      have : getComp (spawn w).1 (mkId w.nextId) ct = getComp w (mkId w.nextId) ct := rfl
      rw [this]
      exact getComp_not_alive hw (fresh_not_mem hw) ct

theorem desEntStep_getComp_old (reg : List CompType) (w : WorldState) (se : SEntity)
    (e' : String) (c' : CompType) (hne : e' ≠ mkId w.nextId) :
    getComp (desEntStep reg w se) e' c' = getComp w e' c' := by
  unfold desEntStep
  rw [desAttachFold_other reg _ se.components (spawn w).1 e' c' (by rw [spawn_id]; exact hne)]
  rfl

theorem cons_range_map (n L : Nat) :
    mkId n :: (List.range L).map (fun i => mkId (n + 1 + i)) =
      (List.range (L + 1)).map (fun i => mkId (n + i)) := by
  rw [List.range_succ_eq_map, List.map_cons, List.map_map]
  have h1 : mkId (n + 0) = mkId n := by rw [Nat.add_zero]
  have h2 : List.map ((fun i => mkId (n + i)) ∘ Nat.succ) (List.range L) =
      List.map (fun i => mkId (n + 1 + i)) (List.range L) := by
    apply List.map_congr_left
    intro i _
    show mkId (n + (i + 1)) = mkId (n + 1 + i)
    congr 1
    omega
  rw [h1, h2]

theorem desFold_spec (reg : List CompType) (hnd : (reg.map CompType.name).Nodup) :
    ∀ (ses : List SEntity) (w : WorldState), WWF w →
      (∀ se ∈ ses, (se.components.map Prod.fst).Nodup) →
      (ses.foldl (desEntStep reg) w).entities =
          w.entities ++ (List.range ses.length).map (fun i => mkId (w.nextId + i)) ∧
      (ses.foldl (desEntStep reg) w).nextId = w.nextId + ses.length ∧
      (ses.foldl (desEntStep reg) w).resources = w.resources ∧
      WWF (ses.foldl (desEntStep reg) w) ∧
      (∀ i, ∀ hi : i < ses.length, ∀ ct ∈ reg,
        getComp (ses.foldl (desEntStep reg) w) (mkId (w.nextId + i)) ct =
          match alookup (ses.get ⟨i, hi⟩).components ct.name with
          | some v => some (nullish (some v) ct.dflt)
          | none => none) ∧
      (∀ (e' : String) (c' : CompType), (∀ k, w.nextId ≤ k → e' ≠ mkId k) →
        getComp (ses.foldl (desEntStep reg) w) e' c' = getComp w e' c') := by
  intro ses
  induction ses with
  | nil =>
      intro w hw _
      refine ⟨by simp, by simp, rfl, hw, ?_, fun _ _ _ => rfl⟩
      intro i hi
      simp at hi
  | cons se rest ih =>
      intro w hw hkeys
      rw [List.foldl_cons]
      have hw1 : WWF (desEntStep reg w se) := desEntStep_wwf hw se
      have hkr : ∀ s ∈ rest, (s.components.map Prod.fst).Nodup :=
        fun s hs => hkeys s (by simp [hs])
      obtain ⟨ih1, ih2, ih3, ih4, ih5, ih6⟩ := ih (desEntStep reg w se) hw1 hkr
      have e1 : (desEntStep reg w se).entities = w.entities ++ [mkId w.nextId] :=
        desEntStep_entities hw se
      have n1 : (desEntStep reg w se).nextId = w.nextId + 1 :=
        desEntStep_nextId reg w se
      refine ⟨?_, ?_, ?_, ih4, ?_, ?_⟩
      · rw [ih1, e1, n1, List.append_assoc]
        congr 1
        show mkId w.nextId :: (List.range rest.length).map
            (fun i => mkId (w.nextId + 1 + i)) = _
        rw [cons_range_map w.nextId rest.length]
        rfl
      · rw [ih2, n1]
        show w.nextId + 1 + rest.length = w.nextId + (rest.length + 1)
        omega
      · rw [ih3, desEntStep_resources]
      · intro i hi ct hct
        cases i with
        | zero =>
            have hne : ∀ k, (desEntStep reg w se).nextId ≤ k →
                mkId (w.nextId + 0) ≠ mkId k := by
              intro k hk hc
              have := mkId_injective hc
              rw [n1] at hk
              omega
            rw [ih6 (mkId (w.nextId + 0)) ct hne]
            have : mkId (w.nextId + 0) = mkId w.nextId := by rw [Nat.add_zero]
            rw [this]
            exact desEntStep_getComp_new hnd hw se (hkeys se (by simp)) ct hct
        | succ j =>
            have hj : j < rest.length := by
              simp only [List.length_cons] at hi
              omega
            have := ih5 j hj ct hct
            have harith : (desEntStep reg w se).nextId + j = w.nextId + (j + 1) := by
              rw [n1]
              omega
            rw [harith] at this
            rw [this]
            rfl
      · intro e' c' he'
        have he'1 : ∀ k, (desEntStep reg w se).nextId ≤ k → e' ≠ mkId k := by
          intro k hk
          rw [n1] at hk
          exact he' k (by omega)
        rw [ih6 e' c' he'1]
        exact desEntStep_getComp_old reg w se e' c' (he' w.nextId (Nat.le_refl _))

theorem getComp_eq_of_components_eq {w1 w2 : WorldState}
    (h : w2.components = w1.components) (e : String) (c : CompType) :
    getComp w2 e c = getComp w1 e c := by
  unfold getComp
  rw [h]

/-- C5 (amended): serializing a constructible world over registries whose
names are unique and then deserializing restores, for every entity discovered
for serialization (with full coverage — every live entity carrying at least
one registered component — that is every live entity), an entity with exactly
the same values for every registered component type, and every registered
resource with its value; every restored entity carries a freshly generated
identifier, never one of the original world's.  The hypotheses record the two
carve-outs the counterexample forces on the original claim: entities with no
registered component are silently absent from the snapshot, and a component
value that is `null` at top level is restored as the component's default
rather than as `null` (so values are required non-null here), plus the
claim's own proviso that values are JSON-serializable.  `g1` is the state of
the process-global identifier supply, which has moved past every identifier
the original world ever drew. -/
theorem serialization_roundtrip
    (g0 : Nat) (w : WorldState) (hw : WReachable g0 w)
    (reg : List CompType) (rreg : List ResType)
    (hregnd : (reg.map CompType.name).Nodup)
    (hrregnd : (rreg.map ResType.name).Nodup)
    (hvals : ∀ (e : String) (ct : CompType) (v : JVal), ct ∈ reg →
      getComp w e ct = some v → isSerializable v = true ∧ v ≠ JVal.null)
    (hrser : ∀ rt ∈ rreg, isSerializable (getResource w rt).2 = true)
    (hent : ∀ e ∈ w.entities, ∃ c ∈ reg, hasComp w e c = true)
    (g1 : Nat) (hg1 : w.nextId ≤ g1) :
    ∃ w', deserializeWorld (serializeWorldWithResources w reg rreg none []).2 reg
        (some rreg) g1 = Except.ok w' ∧
      (∀ e, e ∈ discoverEntities w reg ↔ e ∈ w.entities) ∧
      w'.entities = (List.range (discoverEntities w reg).length).map
        (fun i => mkId (g1 + i)) ∧
      (∀ e', e' ∈ w'.entities → e' ∉ w.entities) ∧
      (∀ i, ∀ hi : i < (discoverEntities w reg).length, ∀ ct ∈ reg,
        getComp w' (mkId (g1 + i)) ct =
          getComp w ((discoverEntities w reg).get ⟨i, hi⟩) ct) ∧
      (∀ rt ∈ rreg, (getResource w' rt).2 = (getResource w rt).2) := by
  have wwf := hw.wwf
  set snap := (serializeWorldWithResources w reg rreg none []).2 with hsnap
  have hver : snap.version = 1 := rfl
  have hents : snap.entities = (discoverEntities w reg).map
      (fun e => serializeEntity w reg e) := rfl
  have hres : snap.resources = (rreg.foldl (serResStep none []) (w, [])).2 := rfl
  -- the deserializer's entity pass
  have hkeys : ∀ se ∈ snap.entities, (se.components.map Prod.fst).Nodup := by
    intro se hse
    rw [hents] at hse
    obtain ⟨e, _, hee⟩ := List.mem_map.mp hse
    rw [← hee]
    exact serializeEntity_keys_nodup w reg e
  obtain ⟨f1, f2, f3, f4, f5, f6⟩ :=
    desFold_spec reg hregnd snap.entities (createWorld g1) (WWF_createWorld g1) hkeys
  set w1 := snap.entities.foldl (desEntStep reg) (createWorld g1) with hw1
  -- the deserializer's resource pass
  set w2 := snap.resources.foldl (desResStep rreg) w1 with hw2
  have hreseq : deserializeWorld snap reg (some rreg) g1 = Except.ok w2 := by
    rw [deserializeWorld, if_neg (fun hc => hc hver)]
  have hrkeysnd : (snap.resources.map Prod.fst).Nodup := by
    rw [hres]
    exact serResFold_keys_nodup rreg w [] (by simp)
  have hrcov : ∀ p ∈ snap.resources, (rregGet rreg p.1).isSome = true := by
    intro p hp
    rw [hres] at hp
    rcases serResFold_keys_sub rreg w [] p hp with h | ⟨rt, hrt, he⟩
    · simp at h
    · rw [he, rregGet_self hrregnd hrt]
      rfl
  have hw2comp : w2.components = w1.components := (desResFold_components rreg _ _).1
  have hw2ent : w2.entities = w1.entities := (desResFold_components rreg _ _).2.1
  have hsneln : snap.entities.length = (discoverEntities w reg).length := by
    rw [hents, List.length_map]
  have hg1id : (createWorld g1).nextId = g1 := rfl
  refine ⟨w2, hreseq, ?_, ?_, ?_, ?_, ?_⟩
  · intro e
    constructor
    · exact discoverEntities_sub w reg e
    · intro he
      exact discoverEntities_complete w reg e he (hent e he)
  · rw [hw2ent, f1, hg1id, hsneln]
    rfl
  · intro e' he'
    rw [hw2ent, f1] at he'
    simp only [hg1id, List.nil_append, List.mem_map, List.mem_range,
      createWorld] at he'
    obtain ⟨i, _, hie⟩ := he'
    intro hc
    obtain ⟨k, hk, hke⟩ := wwf.entities_bound e' hc
    rw [← hie] at hke
    have := mkId_injective hke
    omega
  · intro i hi ct hct
    have hi' : i < snap.entities.length := by rw [hsneln]; exact hi
    have hval := f5 i hi' ct hct
    rw [hg1id] at hval
    have hgc2 : getComp w2 (mkId (g1 + i)) ct = getComp w1 (mkId (g1 + i)) ct :=
      getComp_eq_of_components_eq hw2comp _ _
    set e := (discoverEntities w reg).get ⟨i, hi⟩ with hee
    have hgetse : snap.entities.get ⟨i, hi'⟩ = serializeEntity w reg e := by
      rw [List.get_of_eq hents ⟨i, hi'⟩, hee]
      simp [List.getElem_map]
    have halk : alookup (snap.entities.get ⟨i, hi'⟩).components ct.name =
        serVal w e ct := by
      rw [hgetse]
      exact serializeEntity_lookup w reg e hregnd ct hct
    rw [hgc2, hval]
    simp only [halk]
    cases hg : getComp w e ct with
    | none =>
        have hsv : serVal w e ct = none := by unfold serVal; simp only [hg]
        simp only [hsv]
    | some v =>
        obtain ⟨hs, hn⟩ := hvals e ct v hct hg
        have hsv : serVal w e ct = some v := by
          unfold serVal
          simp [hg, hs]
        simp only [hsv, nullish_of_ne_null hn]
  · intro rt hrt
    have hlk := desResFold_lookup rreg snap.resources w1 hrkeysnd hrcov rt.name
    have hm : alookup snap.resources rt.name = some ((getResource w rt).2) := by
      rw [hres]
      exact serResFold_lookup w rreg w [] hrregnd (fun _ _ => rfl) hrser rt hrt
    simp only [hm] at hlk
    simp only [getResource_snd, hlk]

/-- A component type whose default factory yields `7`, used to exhibit the
round-trip failure on `null`-valued components. -/
def cPos7 : CompType := ⟨"P", JVal.num 7⟩

/-- A constructible world holding one entity whose `cPos7` value has been set
to `null` through the public API (`setComp` stores the value verbatim). -/
def wC5x : WorldState :=
  runWOps 0 [WOp.spawn, WOp.attach (mkId 0) cPos7 (some (JVal.num 1)),
    WOp.setComp (mkId 0) cPos7 JVal.null]

/-- C5 counterexample: the round trip does not preserve component values in
general.  In `wC5x` the sole entity's `cPos7` value is `null` (a
JSON-serializable value, so the claim's serializability proviso holds), yet
after serializing and deserializing, the restored entity's value is the
component's default `7`, because `attach` runs the stored value through
`value ?? component.default()` during restore.  So the claim that the
deserialized world's "entities carry the same component values" fails. -/
theorem serialization_roundtrip_counterexample :
    getComp wC5x (mkId 0) cPos7 = some JVal.null ∧
    isSerializable JVal.null = true ∧
    (deserializeWorld (serializeWorldWithResources wC5x [cPos7] [] none []).2
        [cPos7] (some []) 1).map
      (fun wr => (wr.entities, getComp wr (mkId 1) cPos7)) =
      Except.ok ([mkId 1], some (JVal.num 7)) ∧
    JVal.num 7 ≠ JVal.null :=
  ⟨rfl, rfl, rfl, fun h => JVal.noConfusion h⟩

def cPosW : CompType := ⟨"Position", JVal.num 0⟩

def rScoreW : ResType := ⟨"Score", JVal.num 0⟩

def opsC5w : List WOp :=
  [WOp.spawn, WOp.attach (mkId 0) cPosW (some (JVal.num 1)),
   WOp.setResource rScoreW (JVal.num 10)]

def wC5w : WorldState := runWOps 0 opsC5w

theorem serialization_roundtrip_witness :
    ∃ w', deserializeWorld (serializeWorldWithResources wC5w [cPosW] [rScoreW] none []).2
        [cPosW] (some [rScoreW]) 1 = Except.ok w' ∧
      (∀ e, e ∈ discoverEntities wC5w [cPosW] ↔ e ∈ wC5w.entities) ∧
      w'.entities = (List.range (discoverEntities wC5w [cPosW]).length).map
        (fun i => mkId (1 + i)) ∧
      (∀ e', e' ∈ w'.entities → e' ∉ wC5w.entities) ∧
      (∀ i, ∀ hi : i < (discoverEntities wC5w [cPosW]).length, ∀ ct ∈ [cPosW],
        getComp w' (mkId (1 + i)) ct =
          getComp wC5w ((discoverEntities wC5w [cPosW]).get ⟨i, hi⟩) ct) ∧
      (∀ rt ∈ [rScoreW], (getResource w' rt).2 = (getResource wC5w rt).2) :=
  serialization_roundtrip 0 wC5w ⟨opsC5w, rfl⟩ [cPosW] [rScoreW]
    (by simp) (by simp)
    (by
      intro e ct v hct hg
      have hct2 : ct = cPosW := by simpa using hct
      subst hct2
      have hcmp : wC5w.components = [("Position", [(mkId 0, JVal.num 1)])] := rfl
      unfold getComp at hg
      rw [hcmp] at hg
      have h1 : alookup [("Position", [(mkId 0, JVal.num 1)])] cPosW.name =
          some [(mkId 0, JVal.num 1)] := rfl
      rw [h1, Option.some_bind] at hg
      unfold alookup at hg
      by_cases he : mkId 0 = e
      · rw [if_pos he] at hg
        cases hg
        exact ⟨rfl, fun h => JVal.noConfusion h⟩
      · rw [if_neg he] at hg
        simp [alookup] at hg)
    (by
      intro rt hrt
      have hrt2 : rt = rScoreW := by simpa using hrt
      subst hrt2
      rfl)
    (by
      intro e he
      have hents : wC5w.entities = [mkId 0] := rfl
      rw [hents] at he
      have he2 : e = mkId 0 := by simpa using he
      subst he2
      exact ⟨cPosW, by simp, rfl⟩)
    1 Nat.le.refl

/-- A component type whose default factory yields `null` itself. -/
def cNullD : CompType := ⟨"N", JVal.null⟩

/-- A constructible world where `attach` with an explicit `null` value stored
`null`: the `value ?? component.default()` coalescing substituted the
default, but the default factory returned `null`. -/
def wC10x : WorldState :=
  runWOps 0 [WOp.spawn, WOp.attach (mkId 0) cNullD (some JVal.null)]

/-- C10 counterexample: the claim's consequence that "no component value
stored through attach is ever null" fails when the component's own default
factory returns `null` — `attach(E, T, null)` then stores `null` after
coalescing. -/
theorem attach_null_default_counterexample :
    getComp wC10x (mkId 0) cNullD = some JVal.null :=
  rfl

/-- C10 (amended): for an alive entity, `attach(E, T, null)` stores the result
of T's default-value factory instead of `null` (so a stored value is `null`
only if the factory itself returns `null`), and a component value serialized
as `null` in a snapshot is restored by `deserializeWorld` as the component's
default value, since restore goes through the same `attach` coalescing. -/
theorem attach_null_coalesces_to_default (w : WorldState) (e : String)
    (c : CompType) (he : e ∈ w.entities) (sid : String) (g1 : Nat) :
    getComp (attach w e c (some JVal.null)) e c = some c.dflt ∧
    ∃ w', deserializeWorld ⟨1, [⟨sid, [(c.name, JVal.null)]⟩], []⟩ [c] none g1 =
        Except.ok w' ∧ getComp w' (mkId g1) c = some c.dflt := by
  constructor
  · rw [getComp_attach_self w e c (some JVal.null) he]
    rfl
  · set snap : Snapshot := ⟨1, [⟨sid, [(c.name, JVal.null)]⟩], []⟩ with hsnap
    obtain ⟨f1, f2, f3, f4, f5, f6⟩ := desFold_spec [c] (by simp) snap.entities
      (createWorld g1) (WWF_createWorld g1)
      (by
        intro se hse
        have hse2 : se = ⟨sid, [(c.name, JVal.null)]⟩ := by
          simpa [hsnap] using hse
        subst hse2
        simp)
    refine ⟨snap.entities.foldl (desEntStep [c]) (createWorld g1), rfl, ?_⟩
    have h0 : 0 < snap.entities.length := by rw [hsnap]; simp
    have hv := f5 0 h0 c (by simp)
    have hget : snap.entities.get ⟨0, h0⟩ = ⟨sid, [(c.name, JVal.null)]⟩ := rfl
    simp only [hget] at hv
    have halk : alookup [(c.name, JVal.null)] c.name = some JVal.null := by
      unfold alookup
      rw [if_pos rfl]
    simp only [halk] at hv
    have hn : nullish (some JVal.null) c.dflt = c.dflt := rfl
    rw [hn] at hv
    have hidx : (createWorld g1).nextId + 0 = g1 := rfl
    rw [hidx] at hv
    exact hv

def cC10 : CompType := ⟨"Q", JVal.num 3⟩

def wC10w : WorldState := runWOps 0 [WOp.spawn]

theorem attach_null_coalesces_to_default_witness :
    getComp (attach wC10w (mkId 0) cC10 (some JVal.null)) (mkId 0) cC10 =
        some cC10.dflt ∧
    ∃ w', deserializeWorld ⟨1, [⟨"x", [(cC10.name, JVal.null)]⟩], []⟩ [cC10] none 5 =
        Except.ok w' ∧ getComp w' (mkId 5) cC10 = some cC10.dflt :=
  attach_null_coalesces_to_default wC10w (mkId 0) cC10 (by decide) "x" 5

end Engine
